import Mathlib

/-!
Verification development for the `dcmrig` DICOM batch transformation tool.

The Rust sources are shallowly embedded: a DICOM object in memory
(`FileDicomObject<InMemDicomObject>`) is a tag-keyed collection of data
elements, some of which are sequences of items, each item again a collection
of elements.  We model it as a list of elements with the `BTreeMap` operations
`put` (insert-or-replace by tag), `remove_element` (remove by tag) and
`element` (lookup by tag).  Fallible Rust paths (`?` on `Result`) are modelled
with an explicit result type `PRes` that distinguishes a process abort
(`exit(1)` or an index/slice panic) from an ordinary error (which the caller
catches and turns into a per-file failure).  Rust byte-based string lengths
and slices are modelled on characters; all inputs considered here are ASCII,
where the two coincide.
-/

namespace Dcmrig

/-- DICOM tag: a (group, element) pair, as in `dicom_core::Tag`. -/
structure DTag where
  group : Nat
  elem : Nat
deriving DecidableEq, Repr

/-- The DICOM value representations that occur in the embedded code paths
(`dicom_core::VR`). -/
inductive VR where
  | AE | AS | PN | SH | CS | LO | UI | UC
  | ST | LT | UT | UR
  | DA | TM | DT
  | DS | IS | SQ
deriving DecidableEq, Repr

/-- Primitive DICOM values (`dicom_core::PrimitiveValue`), restricted to the
variants produced or consumed by the embedded code: multi-string (`Strs`),
single string (`Str`), date, time, date-time, and floating-point lists
(modelled over `ℚ`; the code only parses and rounds, never does float
arithmetic). -/
inductive PrimValue where
  | strs : List String → PrimValue
  | str : String → PrimValue
  | date : Nat → Nat → Nat → PrimValue
  | time : Nat → Nat → Nat → PrimValue
  | dateTime : Nat → Nat → Nat → Nat → Nat → Nat → PrimValue
  | floats : List ℚ → PrimValue
deriving DecidableEq, Repr

/-- A data element: either a primitive element with an explicit VR, or a
sequence element (VR `SQ`) holding a list of items, each item being a list of
elements (`InMemDicomObject` nesting). -/
inductive DElem where
  | prim : DTag → VR → PrimValue → DElem
  | seq : DTag → List (List DElem) → DElem
deriving Repr

/-- An in-memory DICOM object: its top-level data elements. -/
abbrev Record := List DElem

def DElem.tagOf : DElem → DTag
  | .prim t _ _ => t
  | .seq t _ => t

/-- The VR reported by `DataElement::vr()`: sequence elements have VR `SQ`. -/
def DElem.vrOf : DElem → VR
  | .prim _ vr _ => vr
  | .seq _ _ => .SQ

/-- Lookup by tag (`InMemDicomObject::element`), `none` when absent. -/
def elementTag (r : Record) (t : DTag) : Option DElem :=
  r.find? (fun e => e.tagOf == t)

/-- Insert-or-replace by tag (`InMemDicomObject::put`): replaces the element
with the same tag when present, otherwise adds the element. -/
def putEl (r : Record) (e : DElem) : Record :=
  if r.any (fun x => x.tagOf == e.tagOf) then
    r.map (fun x => if x.tagOf == e.tagOf then e else x)
  else r ++ [e]

/-- Remove by tag (`InMemDicomObject::remove_element`); removing an absent tag
is a no-op.  This removes only from the object's own (top-level) entries. -/
def removeElement (r : Record) (t : DTag) : Record :=
  r.filter (fun e => !(e.tagOf == t))

/-- The top-level tags of a record are pairwise distinct: the invariant of the
`BTreeMap` underlying `InMemDicomObject`. -/
abbrev tagsNodup (r : Record) : Prop :=
  (r.map DElem.tagOf).Nodup

/-- Result of running a piece of Rust code: `abort` models `exit(1)` or a
panic (the whole process dies), `err` an `Err` propagated with `?` (caught at
the per-file boundary), `ok` a successful value. -/
inductive PRes (α : Type) where
  | abort : PRes α
  | err : PRes α
  | ok : α → PRes α
deriving DecidableEq, Repr

def PRes.bind {α β : Type} : PRes α → (α → PRes β) → PRes β
  | .abort, _ => .abort
  | .err, _ => .err
  | .ok a, f => f a

instance : Monad PRes where
  pure := PRes.ok
  bind := PRes.bind

/-- The standard-dictionary entries (`StandardDataDictionary::by_name`,
with `vr.relaxed()`) for the attribute names the embedded code refers to.
This is interface data of the external codec, taken from the DICOM standard
dictionary the code resolves names against. -/
def byName (name : String) : Option (DTag × VR) :=
  match name with
  | "PatientID" => some (⟨0x0010, 0x0020⟩, .LO)
  | "PatientName" => some (⟨0x0010, 0x0010⟩, .PN)
  | "Modality" => some (⟨0x0008, 0x0060⟩, .CS)
  | "StudyDate" => some (⟨0x0008, 0x0020⟩, .DA)
  | "StudyTime" => some (⟨0x0008, 0x0030⟩, .TM)
  | "SeriesNumber" => some (⟨0x0020, 0x0011⟩, .IS)
  | "SeriesInstanceUID" => some (⟨0x0020, 0x000E⟩, .UI)
  | "StudyInstanceUID" => some (⟨0x0020, 0x000D⟩, .UI)
  | "InstanceNumber" => some (⟨0x0020, 0x0013⟩, .IS)
  | "SeriesDescription" => some (⟨0x0008, 0x103E⟩, .LO)
  | "ImageOrientationPatient" => some (⟨0x0020, 0x0037⟩, .DS)
  | "SOPInstanceUID" => some (⟨0x0008, 0x0018⟩, .UI)
  | "FrameOfReferenceUID" => some (⟨0x0020, 0x0052⟩, .UI)
  | "InstitutionName" => some (⟨0x0008, 0x0080⟩, .LO)
  | "InstitutionAddress" => some (⟨0x0008, 0x0081⟩, .ST)
  | "AccessionNumber" => some (⟨0x0008, 0x0050⟩, .SH)
  | "StudyID" => some (⟨0x0020, 0x0010⟩, .SH)
  | "PatientComments" => some (⟨0x0010, 0x4000⟩, .LT)
  | "OriginalAttributesSequence" => some (⟨0x0400, 0x0561⟩, .SQ)
  | "DeidentificationMethod" => some (⟨0x0012, 0x0063⟩, .LO)
  | "PatientIdentityRemoved" => some (⟨0x0012, 0x0062⟩, .CS)
  | "PatientAge" => some (⟨0x0010, 0x1010⟩, .AS)
  | "PatientSex" => some (⟨0x0010, 0x0040⟩, .CS)
  | "ClinicalTrialSponsorName" => some (⟨0x0012, 0x0010⟩, .LO)
  | "ReferencedStudySequence" => some (⟨0x0008, 0x1110⟩, .SQ)
  | _ => none

/-- Embeds `extract_tag_vr_from_str` (src/lib.rs): dictionary lookup by name,
an unknown name is an `anyhow` error. -/
def extractTagVrFromStr (name : String) : PRes (DTag × VR) :=
  match byName name with
  | some tv => .ok tv
  | none => .err

/-- Lookup by attribute name (`InMemDicomObject::element_by_name`): fails when
the name is not in the dictionary or the tag is absent. -/
def elementByName (r : Record) (name : String) : Option DElem :=
  match byName name with
  | some (t, _) => elementTag r t
  | none => none

def pad2 (n : Nat) : String :=
  if n < 10 then "0" ++ toString n else toString n

def pad4 (n : Nat) : String :=
  if n < 10 then "000" ++ toString n
  else if n < 100 then "00" ++ toString n
  else if n < 1000 then "0" ++ toString n
  else toString n

/-- Canonical textual rendering of a primitive value
(`PrimitiveValue::to_str`): multi-strings are joined with backslashes, dates
and times print in DICOM canonical form. -/
def primToStr : PrimValue → String
  | .strs l => String.intercalate "\\" l
  | .str s => s
  | .date y m d => pad4 y ++ pad2 m ++ pad2 d
  | .time h mi s => pad2 h ++ pad2 mi ++ pad2 s
  | .dateTime y mo d h mi s => pad4 y ++ pad2 mo ++ pad2 d ++ pad2 h ++ pad2 mi ++ pad2 s
  | .floats l => String.intercalate "\\" (l.map (fun q => toString q))

/-- Embeds `InMemElement::to_str`: succeeds on primitive values, errors on a
sequence element (value convert error). -/
def elemToStr : DElem → PRes String
  | .prim _ _ v => .ok (primToStr v)
  | .seq _ _ => .err

def natOfDigits (cs : List Char) : Nat :=
  cs.foldl (fun a c => a * 10 + (c.toNat - 48)) 0

def splitOnCharAux (c : Char) : List Char → List (List Char)
  | [] => [[]]
  | x :: rest =>
      let r := splitOnCharAux c rest
      if x = c then [] :: r
      else
        match r with
        | [] => [[x]]
        | h :: t => (x :: h) :: t

/-- Rust `str::split` with a one-character separator (the only form the code
uses): splits at every occurrence, keeping empty parts, and yields one empty
part for the empty string. -/
def splitOnChar (c : Char) (s : String) : List String :=
  (splitOnCharAux c s.data).map String.mk

/-- Rust `str::parse::<u8>`: an optional leading `+`, then at least one digit,
and the value must fit in `u8`. -/
def parseU8 (cs : List Char) : Option Nat :=
  let ds := match cs with
    | '+' :: rest => rest
    | other => other
  if ds ≠ [] ∧ ds.all Char.isDigit then
    let v := natOfDigits ds
    if v < 256 then some v else none
  else none

def isLeapYear (y : Nat) : Bool :=
  (y % 4 = 0 && y % 100 ≠ 0) || y % 400 = 0

def daysInMonth (y m : Nat) : Nat :=
  if m = 2 then (if isLeapYear y then 29 else 28)
  else if m = 4 ∨ m = 6 ∨ m = 9 ∨ m = 11 then 30
  else 31

/-- Embeds `NaiveDate::parse_from_str(value, "%Y%m%d")` followed by
`DicomDate::try_from` on an 8-character string: four digit year, two digit
month and day, and the triple must be a valid proleptic-Gregorian date. -/
def parseDate8 (s : String) : Option (Nat × Nat × Nat) :=
  let cs := s.data
  if cs.length = 8 ∧ cs.all Char.isDigit then
    let y := natOfDigits (cs.take 4)
    let m := natOfDigits ((cs.drop 4).take 2)
    let d := natOfDigits (cs.drop 6)
    if 1 ≤ m ∧ m ≤ 12 ∧ 1 ≤ d ∧ d ≤ daysInMonth y m then some (y, m, d) else none
  else none

/-- Embeds the `VR::TM` arm's body on a 6-character string: the three
2-character slices are parsed with `str::parse::<u8>` and then validated by
`DicomTime::from_hms` (hour below 24, minute and second below 60). -/
def parseTime6 (s : String) : Option (Nat × Nat × Nat) :=
  let cs := s.data
  match parseU8 (cs.take 2), parseU8 ((cs.drop 2).take 2), parseU8 ((cs.drop 4).take 2) with
  | some h, some mi, some se =>
      if h ≤ 23 ∧ mi ≤ 59 ∧ se ≤ 59 then some (h, mi, se) else none
  | _, _, _ => none

/-- Embeds `dicom_vr_corrected_value` (src/lib.rs lines 562-625).  String VRs
wrap the value unchanged; `DA` aborts the process (`exit(1)`) when the length
is not 8 and otherwise propagates a parse failure as an error; `TM` aborts
when the length is not 6; `DT` splits on `T` (panicking — hence aborting —
when there is no `T`), length-checks and parses the date part, then
length-checks and parses the time part, in the source's order. -/
def dicomVrCorrectedValue (vr : VR) (value : String) : PRes PrimValue :=
  match vr with
  | .AE | .AS | .PN | .SH | .CS | .LO | .UI | .UC => .ok (.strs [value])
  | .ST | .LT | .UT | .UR => .ok (.str value)
  | .DA =>
      if value.length ≠ 8 then .abort
      else
        match parseDate8 value with
        | some (y, m, d) => .ok (.date y m d)
        | none => .err
  | .TM =>
      if value.length ≠ 6 then .abort
      else
        match parseTime6 value with
        | some (h, mi, s) => .ok (.time h mi s)
        | none => .err
  | .DT =>
      match splitOnChar 'T' value with
      | [] => .abort
      | [_] => .abort
      | tDate :: tTime :: _ =>
        if tDate.length ≠ 8 then .abort
        else
          match parseDate8 tDate with
          | none => .err
          | some (y, mo, d) =>
            if tTime.length ≠ 6 then .abort
            else
              match parseTime6 tTime with
              | none => .err
              | some (h, mi, s) => .ok (.dateTime y mo d h mi s)
  | _ => .ok (.str value)

/-- Largest length of a path in the (finite) set of existing paths; used only
to justify termination of `check_if_dup_exists`. -/
def maxLen (fs : List String) : Nat :=
  fs.foldr (fun s acc => max s.length acc) 0

theorem length_le_maxLen {fs : List String} {s : String} (h : s ∈ fs) :
    s.length ≤ maxLen fs := by
  induction fs with
  | nil => cases h
  | cons a l ih =>
      rcases List.mem_cons.mp h with rfl | hmem
      · exact le_max_left _ _
      · exact le_trans (ih hmem) (le_max_right _ _)

/-- Embeds `check_if_dup_exists` (src/lib.rs lines 211-219), with the
filesystem abstracted to the finite set `fs` of existing paths: while the
candidate path exists, append `~` and retry. -/
def checkIfDupExists (fs : List String) (p : String) : String :=
  if p ∈ fs then checkIfDupExists fs (p ++ "~") else p
termination_by maxLen fs + 1 - p.length
decreasing_by
  rename_i h
  have hle : p.length ≤ maxLen fs := length_le_maxLen h
  have hlen : (p ++ "~").length = p.length + 1 := by
    simp [String.length_append]
    rfl
  omega

def isPrivate (t : DTag) : Bool := t.group % 2 = 1

mutual

/-- Embeds the inner `collect_tags` of `delete_private_tags` (src/lib.rs
lines 340-355): push the element's tag when its group is odd and recurse into
the items of sequence elements. -/
def collectTags : DElem → List DTag
  | .prim t _ _ => if isPrivate t then [t] else []
  | .seq t items => (if isPrivate t then [t] else []) ++ collectTagsItems items

def collectTagsItems : List (List DElem) → List DTag
  | [] => []
  | item :: rest => collectTagsItem item ++ collectTagsItems rest

def collectTagsItem : List DElem → List DTag
  | [] => []
  | e :: rest => collectTags e ++ collectTagsItem rest

end

/-- Tag of the Original Attributes Sequence (prior de-identification
operations), `dicom_dictionary_std::tags::ORIGINAL_ATTRIBUTES_SEQUENCE`. -/
def originalAttributesSequence : DTag := ⟨0x0400, 0x0561⟩

/-- Embeds `delete_private_tags` (src/lib.rs lines 328-364): collect the odd
group tags recursively over the whole record, then call `remove_element` —
which removes only from the top level — for each collected tag, and finally
remove the Original Attributes Sequence.  The Rust function returns
`Result` but has no failing path, so it is modelled as total. -/
def deletePrivateTags (r : Record) : Record :=
  let privateTags := collectTagsItem r
  let r1 := privateTags.foldl (fun acc t => removeElement acc t) r
  removeElement r1 originalAttributesSequence

/-- Embeds `mask_all_vr` (src/lib.rs lines 390-405): iterate over a clone of
the object and `put` the replacement value for every top-level element whose
VR matches.  There is no recursion into sequence items. -/
def maskAllVr (r : Record) (vr : VR) (val : PrimValue) : Record :=
  r.foldl (fun acc e => if e.vrOf == vr then putEl acc (.prim e.tagOf e.vrOf val) else acc) r

/-- Embeds `mask_vr` (src/lib.rs lines 407-417): the replacement string is
wrapped as a `Strs` primitive and `mask_all_vr` is applied for each VR in the
list. -/
def maskVr (r : Record) (vrList : List VR) (val : String) : Record :=
  vrList.foldl (fun acc vr => maskAllVr acc vr (.strs [val])) r

/-- Embeds `tags_to_mask` (src/lib.rs lines 249-299): for each configured
entry, type-correct the substitute identity for the entry's VR and `put` it at
the entry's tag.  The result of `put` is only logged.  The nested helper
`mask_sq_vrs` walks sequences but its update is commented out (`TODO`), so it
mutates nothing and is omitted here. -/
def tagsToMask (r : Record) (patientDeid : String) : List (DTag × VR) → PRes Record
  | [] => .ok r
  | (t, vr) :: rest =>
      (dicomVrCorrectedValue vr patientDeid).bind fun value =>
        tagsToMask (putEl r (.prim t vr value)) patientDeid rest

/-- Embeds `tags_to_add` (src/lib.rs lines 301-313): resolve each configured
name in the dictionary, type-correct its literal value, and `put` it.  The
`HashMap` of the source is modelled as an association list; iteration order
only matters when two entries resolve to the same tag. -/
def tagsToAdd (r : Record) : List (String × String) → PRes Record
  | [] => .ok r
  | (name, v) :: rest =>
      (extractTagVrFromStr name).bind fun tv =>
        (dicomVrCorrectedValue tv.2 v).bind fun value =>
          tagsToAdd (putEl r (.prim tv.1 tv.2 value)) rest

/-- Embeds `tags_to_delete` (src/lib.rs lines 315-326): `remove_element` for
each configured tag; a missing tag is only logged.  The Rust function returns
`Result` but has no failing path, so it is modelled as total. -/
def tagsToDelete (r : Record) (cfg : List (DTag × VR)) : Record :=
  cfg.foldl (fun acc tv => removeElement acc tv.1) r

/-- The fixed non-identifying UID stem of `anon_dicom_uids`, split at the
dots; note it has nine components. -/
def anonUidPfxParts : List String :=
  splitOnChar '.' "1.2.999.999999.9999.9.9.9.9999"

def uidTagList : List String :=
  ["SOPInstanceUID", "StudyInstanceUID", "SeriesInstanceUID", "FrameOfReferenceUID"]

/-- One iteration of the loop in `anon_dicom_uids` (src/lib.rs lines 377-386):
read the UID element (an error when absent), split its textual value at the
dots, panic — modelled as `abort` — when there are fewer than 8 components
(the slice `org_uid_vec[8..]` is out of bounds), otherwise join the fixed stem
with the components from index 8 on and `put` the result back. -/
def anonUidStep (r : Record) (name : String) : PRes Record :=
  (extractTagVrFromStr name).bind fun tv =>
    match elementTag r tv.1 with
    | none => .err
    | some e =>
        (elemToStr e).bind fun orgUidVal =>
          let orgUidParts := splitOnChar '.' orgUidVal
          if orgUidParts.length < 8 then .abort
          else
            let newUidVal := String.intercalate "." (anonUidPfxParts ++ orgUidParts.drop 8)
            (dicomVrCorrectedValue tv.2 newUidVal).bind fun value =>
              .ok (putEl r (.prim tv.1 tv.2 value))

def anonDicomUidsAux (r : Record) : List String → PRes Record
  | [] => .ok r
  | name :: rest => (anonUidStep r name).bind fun r2 => anonDicomUidsAux r2 rest

/-- Embeds `anon_dicom_uids` (src/lib.rs lines 366-388): the step above for
SOPInstanceUID, StudyInstanceUID, SeriesInstanceUID and FrameOfReferenceUID in
order. -/
def anonDicomUids (r : Record) : PRes Record :=
  anonDicomUidsAux r uidTagList

/-- Decimal fragment of Rust's `f64` parser, sufficient for the strings the
code feeds it: optional sign, digits, optional fractional part (at least one
digit overall).  Values are exact rationals; the code never computes with the
parsed floats, it only rounds them. -/
def parseF64 (s : String) : Option ℚ :=
  let p := match s.data with
    | '-' :: rest => ((-1 : ℚ), rest)
    | '+' :: rest => ((1 : ℚ), rest)
    | other => ((1 : ℚ), other)
  let intPart := p.2.takeWhile Char.isDigit
  let rest1 := p.2.dropWhile Char.isDigit
  match rest1 with
  | [] =>
      if intPart ≠ [] then some (p.1 * natOfDigits intPart) else none
  | '.' :: frac =>
      if frac.all Char.isDigit ∧ (intPart ≠ [] ∨ frac ≠ []) then
        some (p.1 * ((natOfDigits intPart : ℚ) +
          (natOfDigits frac : ℚ) / ((10 : ℚ) ^ frac.length)))
      else none
  | _ => none

/-- Embeds `Value::to_multi_float64`: float lists pass through, string values
are parsed element-wise, other variants are convert errors. -/
def toMultiFloat64 : PrimValue → Option (List ℚ)
  | .floats l => some l
  | .strs l => l.mapM parseF64
  | .str s => (parseF64 s).map (fun q => [q])
  | _ => none

/-- Rust `f64::round`: round half away from zero. -/
def roundAway (q : ℚ) : ℤ :=
  if 0 ≤ q then ⌊q + 1 / 2⌋ else -⌊-q + 1 / 2⌋

/-- Rust `as i8` on a (rounded) float: saturating cast. -/
def toI8Sat (z : ℤ) : ℤ :=
  if z < -128 then -128 else if z > 127 then 127 else z

/-- Embeds `determine_plane` (src/lib.rs lines 541-560): a missing
ImageOrientationPatient defaults to six zeros; a present one is converted with
`to_multi_float64` (an error on failure); indexing `orientation[0,1,4,5]`
panics — modelled as `abort` — when fewer than six values are present; then
the rounded direction cosines select COR, AX, SAG or NA. -/
def determinePlane (r : Record) : PRes String :=
  let orientationRes : PRes (List ℚ) :=
    match elementByName r "ImageOrientationPatient" with
    | some (.prim _ _ v) =>
        match toMultiFloat64 v with
        | some l => .ok l
        | none => .err
    | some (.seq _ _) => .err
    | none => .ok [0, 0, 0, 0, 0, 0]
  orientationRes.bind fun orientation =>
    if orientation.length < 6 then .abort
    else
      let rowX := toI8Sat (roundAway (orientation.getD 0 0))
      let rowY := toI8Sat (roundAway (orientation.getD 1 0))
      let colY := toI8Sat (roundAway (orientation.getD 4 0))
      let colZ := toI8Sat (roundAway (orientation.getD 5 0))
      let plane :=
        if rowX = 1 ∧ colZ = -1 then "COR"
        else if rowX = 1 ∧ colY = 1 then "AX"
        else if rowY = 1 ∧ colZ = -1 then "SAG"
        else "NA"
      .ok plane

/-- The fixed tag-name list `DICOM_TAGS_SANITIZED` (src/lib.rs lines 33-44). -/
def dicomTagsSanitized : List String :=
  ["PatientID", "PatientName", "Modality", "StudyDate", "StudyTime",
   "SeriesNumber", "SeriesInstanceUID", "StudyInstanceUID", "InstanceNumber",
   "SeriesDescription"]

/-- Rust `str::replace(&['-', ':'][..], "")`. -/
def sanitizeStr (s : String) : String :=
  String.mk (s.data.filter (fun c => c ≠ '-' ∧ c ≠ ':'))

/-- The per-tag loop of `get_sanitized_tag_values` (src/lib.rs lines 183-197):
a present tag contributes its sanitized textual value (`to_str` failures
propagate as errors), an absent tag contributes `NoValue_` followed by the tag
name.  Entries are listed in loop order; the source's `HashMap` is observed
only through key lookup. -/
def sanitizedEntriesAux (r : Record) : List String → PRes (List (String × String))
  | [] => .ok []
  | name :: rest =>
      match elementByName r name with
      | some e =>
          (elemToStr e).bind fun s =>
            (sanitizedEntriesAux r rest).bind fun tail =>
              .ok ((name, sanitizeStr s) :: tail)
      | none =>
          (sanitizedEntriesAux r rest).bind fun tail =>
            .ok ((name, "NoValue_" ++ name) :: tail)

/-- Embeds `get_sanitized_tag_values` (src/lib.rs lines 179-200): the ten
fixed tags, then the ImagePlane entry from `determine_plane`. -/
def getSanitizedTagValues (r : Record) : PRes (List (String × String)) :=
  (sanitizedEntriesAux r dicomTagsSanitized).bind fun entries =>
    (determinePlane r).bind fun plane =>
      .ok (entries ++ [("ImagePlane", plane)])

/-- The processed count printed by `print_status` (src/lib.rs line 517):
`total_len - (total_proc_failed_files + total_non_dcm_files)`. -/
def printStatusProcessed (totalLen totalProcFailed totalNonDcm : Nat) : Nat :=
  totalLen - (totalProcFailed + totalNonDcm)

/-- First-match lookup in an association list, the observable behaviour of
`HashMap::get` for the maps built here (each key is inserted at most once). -/
def mapLookup (m : List (String × String)) (k : String) : Option String :=
  match m with
  | [] => none
  | (k', v) :: rest => if k' = k then some v else mapLookup rest k

/-- The identity generated on a miss in `anon_each_dcm_file` (src/anon.rs
lines 97-101): the fresh `gen_id()` output, prefixed with the operator tag and
an underscore when the tag is non-empty.  `gen_id` itself is a random
10-character nanoid; its output is passed in as `fresh`. -/
def genAnonId (anonPfx fresh : String) : String :=
  if anonPfx.length = 0 then fresh else anonPfx ++ "_" ++ fresh

/-- Embeds the critical section of `anon_each_dcm_file` (src/anon.rs lines
93-109): under the registry lock, a missing PatientID key inserts a newly
generated identity, then the identity for the key is read back.  The mutex
serialises these sections, so a run is a sequence of such steps.  Returns the
updated registry and the identity used for this file. -/
def anonStep (anonPfx : String) (m : List (String × String)) (pid fresh : String) :
    List (String × String) × String :=
  let m' := match mapLookup m pid with
    | some _ => m
    | none => (pid, genAnonId anonPfx fresh) :: m
  (m', (mapLookup m' pid).getD "")

/-- A whole anonymization run as seen by the registry: the serialised
sequence of critical sections, one per record, each with the record's
PatientID and the `gen_id()` value it would use on a miss.  Returns the
identity assigned to each record, in order. -/
def anonRun (anonPfx : String) : List (String × String) → List (String × String) → List String
  | [], _ => []
  | (pid, fresh) :: rest, m =>
      let s := anonStep anonPfx m pid fresh
      s.2 :: anonRun anonPfx rest s.1

/-- The registry contents after a run. -/
def runMap (anonPfx : String) (reqs : List (String × String)) (m : List (String × String)) :
    List (String × String) :=
  reqs.foldl (fun acc pf => (anonStep anonPfx acc pf.1 pf.2).1) m

/-- The `gen_id()` value of the first record of the run carrying the given
PatientID, if any. -/
def firstFresh (reqs : List (String × String)) (k : String) : Option String :=
  (reqs.find? (fun pf => pf.1 == k)).map (fun pf => pf.2)

/-- Embeds `deid_each_dcm_file` (src/deid.rs lines 113-183) up to the deferred
write: read the match-field value (an error when absent or unreadable), look
it up in the mapping table (a miss yields the empty string and a silent skip,
`Ok` with no output), then apply — in this order — the private-tag purge, the
mask list, the VR mask list, the add list and the delete list, each skipped
when its configuration is empty, then compute the sanitized tag values for
path generation.  `ok none` is a skip (nothing written), `ok (some r)` hands
`r` to the deferred write stage. -/
def deidEachDcmFile (r : Record) (mappingDict : List (String × String))
    (matchId : DTag × VR) (maskTagCfg : List (DTag × VR)) (maskVrCfg : List VR)
    (deleteTagCfg : List (DTag × VR)) (addCfg : List (String × String))
    (privateTagsDel : Bool) : PRes (Option Record) :=
  match elementTag r matchId.1 with
  | none => .err
  | some e =>
      (elemToStr e).bind fun tagToMatch =>
        let patientDeid := (mapLookup mappingDict tagToMatch).getD ""
        if patientDeid = "" then .ok none
        else
          let step1 := if privateTagsDel then deletePrivateTags r else r
          (if maskTagCfg.isEmpty then .ok step1
           else tagsToMask step1 patientDeid maskTagCfg).bind fun step2 =>
            let step3 := if maskVrCfg.isEmpty then step2 else maskVr step2 maskVrCfg patientDeid
            (if addCfg.isEmpty then .ok step3 else tagsToAdd step3 addCfg).bind fun step4 =>
              let step5 := if deleteTagCfg.isEmpty then step4 else tagsToDelete step4 deleteTagCfg
              (getSanitizedTagValues step5).bind fun _ =>
                .ok (some step5)

/-- The counting loop of `dicom_deid` (src/deid.rs lines 54-95) over decoded
inputs: `none` is a file that failed to decode (non-DICOM counter), a decoded
record that errors in `deid_each_dcm_file` increments the failed counter, a
panic or `exit` aborts the run, and both a written and a skipped record leave
the counters unchanged.  Returns (failed, nonDicom). -/
def deidRunCounters (mappingDict : List (String × String)) (matchId : DTag × VR)
    (maskTagCfg : List (DTag × VR)) (maskVrCfg : List VR)
    (deleteTagCfg : List (DTag × VR)) (addCfg : List (String × String))
    (privateTagsDel : Bool) : List (Option Record) → Nat × Nat → PRes (Nat × Nat)
  | [], c => .ok c
  | none :: rest, c =>
      deidRunCounters mappingDict matchId maskTagCfg maskVrCfg deleteTagCfg addCfg
        privateTagsDel rest (c.1, c.2 + 1)
  | some r :: rest, c =>
      match deidEachDcmFile r mappingDict matchId maskTagCfg maskVrCfg deleteTagCfg
          addCfg privateTagsDel with
      | .abort => .abort
      | .err =>
          deidRunCounters mappingDict matchId maskTagCfg maskVrCfg deleteTagCfg addCfg
            privateTagsDel rest (c.1 + 1, c.2)
      | .ok _ =>
          deidRunCounters mappingDict matchId maskTagCfg maskVrCfg deleteTagCfg addCfg
            privateTagsDel rest c

/-- A string of `n` tilde characters, the suffix alphabet of
`check_if_dup_exists`. -/
def tildes (n : Nat) : String :=
  String.mk (List.replicate n '~')

theorem tildes_zero : tildes 0 = "" := rfl

theorem append_tildes_succ (p : String) (n : Nat) :
    p ++ tildes (n + 1) = (p ++ "~") ++ tildes n := by
  cases p with
  | mk l =>
      show String.mk (l ++ List.replicate (n + 1) '~') =
        String.mk ((l ++ ['~']) ++ List.replicate n '~')
      simp [List.replicate_succ]

theorem append_tildes_zero (p : String) : p ++ tildes 0 = p := by
  cases p with
  | mk l => show String.mk (l ++ []) = String.mk l; simp

/-- The recursion of `check_if_dup_exists`, unfolded along its measure: the
result never names an existing path, and it is the base path extended with
some number of tildes, all shorter extensions being occupied. -/
theorem checkIfDupExists_spec_aux (fs : List String) :
    ∀ (n : Nat) (p : String), maxLen fs + 1 - p.length ≤ n →
      checkIfDupExists fs p ∉ fs ∧
      ∃ k, checkIfDupExists fs p = p ++ tildes k ∧ ∀ j < k, p ++ tildes j ∈ fs := by
  intro n
  induction n with
  | zero =>
      intro p hn
      have hnot : p ∉ fs := by
        intro hmem
        have := length_le_maxLen hmem
        omega
      rw [checkIfDupExists, if_neg hnot]
      exact ⟨hnot, 0, (append_tildes_zero p).symm, fun j hj => absurd hj (Nat.not_lt_zero j)⟩
  | succ n ih =>
      intro p hn
      by_cases hmem : p ∈ fs
      · have hlen : (p ++ "~").length = p.length + 1 := by
          simp [String.length_append]; rfl
        have hle : p.length ≤ maxLen fs := length_le_maxLen hmem
        have hrec := ih (p ++ "~") (by omega)
        rw [checkIfDupExists, if_pos hmem]
        obtain ⟨hnot, k, heq, hall⟩ := hrec
        refine ⟨hnot, k + 1, by rw [append_tildes_succ]; exact heq, ?_⟩
        intro j hj
        cases j with
        | zero => rw [append_tildes_zero]; exact hmem
        | succ i =>
            rw [append_tildes_succ]
            exact hall i (by omega)
      · rw [checkIfDupExists, if_neg hmem]
        exact ⟨hmem, 0, (append_tildes_zero p).symm, fun j hj => absurd hj (Nat.not_lt_zero j)⟩

/-- C9: for every destination path and finite set of existing paths,
`check_if_dup_exists` terminates (it is a total function here) and returns the
path extended with the minimal number of `~` characters avoiding every
existing path; in particular, when the paths `p`, `p~`, …, `p ++ tildes (m-1)`
are all occupied and `p ++ tildes m` is free, the result is exactly
`p ++ tildes m` — one `~` more than the existing colliding chain — and no
existing file's path is ever returned. -/
theorem check_if_dup_exists_minimal (fs : List String) (p : String) :
    checkIfDupExists fs p ∉ fs ∧
    (∃ k, checkIfDupExists fs p = p ++ tildes k ∧ ∀ j < k, p ++ tildes j ∈ fs) ∧
    (∀ m, (∀ j < m, p ++ tildes j ∈ fs) → p ++ tildes m ∉ fs →
      checkIfDupExists fs p = p ++ tildes m) := by
  obtain ⟨hnot, k, heq, hall⟩ :=
    checkIfDupExists_spec_aux fs (maxLen fs + 1 - p.length) p le_rfl
  refine ⟨hnot, ⟨k, heq, hall⟩, ?_⟩
  intro m hocc hfree
  rcases Nat.lt_trichotomy k m with hkm | hkm | hkm
  · exact absurd (heq ▸ hocc k hkm) hnot
  · rw [heq, hkm]
  · exact absurd (hall m hkm) hfree

/-- Witness for C9: with `a` and `a~` occupied, a record whose path computes
to `a` is written to `a~~`, which is free. -/
theorem check_if_dup_exists_minimal_witness :
    checkIfDupExists ["a", "a~"] "a" = "a" ++ tildes 2 ∧
    checkIfDupExists ["a", "a~"] "a" ∉ ["a", "a~"] :=
  ⟨(check_if_dup_exists_minimal ["a", "a~"] "a").2.2 2
      (by decide) (by decide),
    (check_if_dup_exists_minimal ["a", "a~"] "a").1⟩

def optOr {α : Type} : Option α → Option α → Option α
  | some v, _ => some v
  | none, b => b

theorem optOr_some {α : Type} (v : α) (b : Option α) : optOr (some v) b = some v := rfl

theorem optOr_none {α : Type} (b : Option α) : optOr none b = b := rfl

theorem mapLookup_cons_self (k v : String) (m : List (String × String)) :
    mapLookup ((k, v) :: m) k = some v := by
  simp [mapLookup]

theorem mapLookup_cons_ne {k' k : String} (v : String) (m : List (String × String))
    (hk : k' ≠ k) : mapLookup ((k', v) :: m) k = mapLookup m k := by
  simp [mapLookup, hk]

theorem anonStep_fst_some {m : List (String × String)} {pid v : String}
    (anonPfx fresh : String) (h : mapLookup m pid = some v) :
    (anonStep anonPfx m pid fresh).1 = m := by
  simp [anonStep, h]

theorem anonStep_fst_none {m : List (String × String)} {pid : String}
    (anonPfx fresh : String) (h : mapLookup m pid = none) :
    (anonStep anonPfx m pid fresh).1 = (pid, genAnonId anonPfx fresh) :: m := by
  simp [anonStep, h]

theorem anonStep_snd (anonPfx : String) (m : List (String × String)) (pid fresh : String) :
    (anonStep anonPfx m pid fresh).2 =
      (mapLookup (anonStep anonPfx m pid fresh).1 pid).getD "" := rfl

theorem firstFresh_cons_self (k f : String) (l : List (String × String)) :
    firstFresh ((k, f) :: l) k = some f := by
  unfold firstFresh
  rw [List.find?_cons_of_pos _ (by simp)]
  rfl

theorem firstFresh_cons_ne (k0 f0 k : String) (l : List (String × String)) (hk : k0 ≠ k) :
    firstFresh ((k0, f0) :: l) k = firstFresh l k := by
  unfold firstFresh
  rw [List.find?_cons_of_neg _ (by simp [hk])]


/-- The registry after a run, characterised: a key maps to its value in the
initial registry if present there, otherwise to the identity generated from
the first request carrying that key. -/
theorem runMap_lookup (anonPfx : String) :
    ∀ (reqs : List (String × String)) (m : List (String × String)) (k : String),
      mapLookup (runMap anonPfx reqs m) k =
        optOr (mapLookup m k) ((firstFresh reqs k).map (genAnonId anonPfx)) := by
  intro reqs
  induction reqs with
  | nil =>
      intro m k
      cases h : mapLookup m k <;> simp [runMap, firstFresh, optOr, h]
  | cons hd rest ih =>
      intro m k
      obtain ⟨k0, f0⟩ := hd
      have hstep : runMap anonPfx ((k0, f0) :: rest) m =
          runMap anonPfx rest (anonStep anonPfx m k0 f0).1 := rfl
      rw [hstep, ih]
      by_cases hk : k0 = k
      · subst hk
        cases hm : mapLookup m k0 with
        | some v =>
            rw [anonStep_fst_some anonPfx f0 hm, hm, firstFresh_cons_self]
            simp [optOr]
        | none =>
            rw [anonStep_fst_none anonPfx f0 hm, mapLookup_cons_self, firstFresh_cons_self]
            simp [optOr]
      · have hlk : mapLookup (anonStep anonPfx m k0 f0).1 k = mapLookup m k := by
          cases hm : mapLookup m k0 with
          | some v => rw [anonStep_fst_some anonPfx f0 hm]
          | none => rw [anonStep_fst_none anonPfx f0 hm, mapLookup_cons_ne _ _ hk]
        rw [hlk, firstFresh_cons_ne _ _ _ _ hk]

/-- The identity handed to the i-th record, characterised against the initial
registry and the first matching request among the first `i + 1`. -/
theorem anonRun_get (anonPfx : String) :
    ∀ (reqs : List (String × String)) (m : List (String × String)) (i : Nat) (k f : String),
      reqs[i]? = some (k, f) →
      (anonRun anonPfx reqs m)[i]? =
        some ((optOr (mapLookup m k)
          ((firstFresh (reqs.take (i + 1)) k).map (genAnonId anonPfx))).getD "") := by
  intro reqs
  induction reqs with
  | nil => intro m i k f h; simp at h
  | cons hd rest ih =>
      intro m i k f h
      obtain ⟨k0, f0⟩ := hd
      have hrun : anonRun anonPfx ((k0, f0) :: rest) m =
          (anonStep anonPfx m k0 f0).2 :: anonRun anonPfx rest (anonStep anonPfx m k0 f0).1 := rfl
      cases i with
      | zero =>
          simp only [List.getElem?_cons_zero, Option.some.injEq, Prod.mk.injEq] at h
          obtain ⟨rfl, rfl⟩ := h
          rw [hrun]
          simp only [List.getElem?_cons_zero, List.take, firstFresh_cons_self]
          rw [anonStep_snd]
          cases hm : mapLookup m k0 with
          | some v =>
              rw [anonStep_fst_some anonPfx f0 hm, hm]
              simp [optOr]
          | none =>
              rw [anonStep_fst_none anonPfx f0 hm, mapLookup_cons_self]
              simp [optOr]
      | succ j =>
          simp only [List.getElem?_cons_succ] at h
          rw [hrun]
          simp only [List.getElem?_cons_succ]
          rw [ih (anonStep anonPfx m k0 f0).1 j k f h]
          by_cases hk : k0 = k
          · subst hk
            cases hm : mapLookup m k0 with
            | some v =>
                rw [anonStep_fst_some anonPfx f0 hm, hm]
                simp only [List.take, firstFresh_cons_self]
                simp [optOr]
            | none =>
                rw [anonStep_fst_none anonPfx f0 hm, mapLookup_cons_self]
                simp only [List.take, firstFresh_cons_self]
                simp [optOr]
          · have hlk : mapLookup (anonStep anonPfx m k0 f0).1 k = mapLookup m k := by
              cases hm : mapLookup m k0 with
              | some v => rw [anonStep_fst_some anonPfx f0 hm]
              | none => rw [anonStep_fst_none anonPfx f0 hm, mapLookup_cons_ne _ _ hk]
            rw [hlk]
            have hff : firstFresh (((k0, f0) :: rest).take (j + 1 + 1)) k =
                firstFresh (rest.take (j + 1)) k := by
              simp only [List.take]
              exact firstFresh_cons_ne _ _ _ _ hk
            rw [hff]

/-- The first matching request among the first `i + 1` is the first matching
request overall, when index `i` itself matches. -/
theorem firstFresh_take (reqs : List (String × String)) :
    ∀ (i : Nat) (k f : String), reqs[i]? = some (k, f) →
      firstFresh (reqs.take (i + 1)) k = firstFresh reqs k ∧
      ∃ f0, firstFresh reqs k = some f0 := by
  induction reqs with
  | nil => intro i k f h; simp at h
  | cons hd rest ih =>
      intro i k f h
      obtain ⟨k0, f0⟩ := hd
      by_cases hk : k0 = k
      · subst hk
        refine ⟨?_, f0, firstFresh_cons_self _ _ _⟩
        cases i with
        | zero =>
            simp only [List.take]
            rw [firstFresh_cons_self, firstFresh_cons_self]
        | succ j =>
            simp only [List.take]
            rw [firstFresh_cons_self, firstFresh_cons_self]
      · cases i with
        | zero =>
            simp only [List.getElem?_cons_zero, Option.some.injEq, Prod.mk.injEq] at h
            exact absurd h.1 hk
        | succ j =>
            simp only [List.getElem?_cons_succ] at h
            obtain ⟨hff, f1, hf1⟩ := ih j k f h
            refine ⟨?_, f1, by rw [firstFresh_cons_ne _ _ _ _ hk]; exact hf1⟩
            simp only [List.take]
            rw [firstFresh_cons_ne _ _ _ _ hk, firstFresh_cons_ne _ _ _ _ hk]
            exact hff

/-- C1: in every anonymization run — modelled as the mutex-serialised
sequence of get-or-create critical sections, one per record, in any order the
workers acquire the lock — (1) every record whose PatientID equals `k`
receives the identity generated from the run's first request for `k`, namely
the fresh `gen_id()` output prefixed with the operator tag and an underscore
when the tag is non-empty (so the first lookup for `k` inserts it and every
other lookup for `k`, before or after, observes the same value), and (2) an
entry present in the registry after any prefix of the run is still present,
unchanged, after the whole run: no entry is ever removed or overwritten. -/
theorem anon_identity_registry_consistent (anonPfx : String)
    (reqs : List (String × String)) :
    (∀ (i : Nat) (k f : String), reqs[i]? = some (k, f) →
      (anonRun anonPfx reqs ([] : List (String × String)))[i]? =
        some (genAnonId anonPfx ((firstFresh reqs k).getD f))) ∧
    (∀ (pre post : List (String × String)) (k v : String), reqs = pre ++ post →
      mapLookup (runMap anonPfx pre ([] : List (String × String))) k = some v →
      mapLookup (runMap anonPfx reqs ([] : List (String × String))) k = some v) := by
  constructor
  · intro i k f h
    rw [anonRun_get anonPfx reqs [] i k f h]
    obtain ⟨hff, f0, hf0⟩ := firstFresh_take reqs i k f h
    rw [show mapLookup [] k = none from rfl, optOr_none, hff, hf0]
    rfl
  · intro pre post k v heq hpre
    subst heq
    have hfold : runMap anonPfx (pre ++ post) ([] : List (String × String)) =
        runMap anonPfx post (runMap anonPfx pre []) := by
      simp [runMap, List.foldl_append]
    rw [hfold, runMap_lookup, hpre, optOr_some]

/-- Witness for C1: a run with prefix `SITE1` and records for subjects `U1`,
`U2`, `U1` in that order assigns `SITE1_aaa` to both `U1` records (the later
`U1` record ignores its own fresh id `ccc`), and the `U1` entry inserted by
the first record survives the whole run unchanged. -/
theorem anon_identity_registry_consistent_witness :
    (anonRun "SITE1" [("U1", "aaa"), ("U2", "bbb"), ("U1", "ccc")]
        ([] : List (String × String)))[2]? = some "SITE1_aaa" ∧
    mapLookup (runMap "SITE1" [("U1", "aaa"), ("U2", "bbb"), ("U1", "ccc")]
        ([] : List (String × String))) "U1" = some "SITE1_aaa" := by
  constructor
  · have h := (anon_identity_registry_consistent "SITE1"
      [("U1", "aaa"), ("U2", "bbb"), ("U1", "ccc")]).1 2 "U1" "ccc" (by rfl)
    rw [h]
    rfl
  · exact (anon_identity_registry_consistent "SITE1"
      [("U1", "aaa"), ("U2", "bbb"), ("U1", "ccc")]).2
      [("U1", "aaa")] [("U2", "bbb"), ("U1", "ccc")] "U1" "SITE1_aaa" rfl (by rfl)

/-- Input for C2: a record with a top-level private (odd-group) element, a
private element nested inside two sequence levels, and even-group elements at
every level; no top-level element shares a tag with the nested private one. -/
def exC2 : Record :=
  [.prim ⟨0x0009, 0x0001⟩ .LO (.strs ["vendor"]),
   .seq ⟨0x0008, 0x1115⟩
     [[.seq ⟨0x0008, 0x1110⟩
        [[.prim ⟨0x0009, 0x0010⟩ .LO (.strs ["secret"]),
          .prim ⟨0x0008, 0x0060⟩ .CS (.strs ["MR"])]]]],
   .prim ⟨0x0010, 0x0020⟩ .LO (.strs ["pid"])]

/-- C2 (failing input): `delete_private_tags` removes the top-level private
element but leaves the private element nested inside the sequences in place —
the recursive walk collects its tag, but `remove_element` only removes
top-level entries, so the output still contains an odd-group field (as the
recursive collector itself confirms), while the claim requires every
odd-group field at every nesting depth to be removed. -/
theorem delete_private_tags_keeps_nested_private :
    deletePrivateTags exC2 =
      [.seq ⟨0x0008, 0x1115⟩
        [[.seq ⟨0x0008, 0x1110⟩
           [[.prim ⟨0x0009, 0x0010⟩ .LO (.strs ["secret"]),
             .prim ⟨0x0008, 0x0060⟩ .CS (.strs ["MR"])]]]],
       .prim ⟨0x0010, 0x0020⟩ .LO (.strs ["pid"])] ∧
    collectTagsItem (deletePrivateTags exC2) = [⟨0x0009, 0x0010⟩] :=
  ⟨rfl, rfl⟩

@[simp] theorem tagOf_prim (t : DTag) (vr : VR) (v : PrimValue) :
    (DElem.prim t vr v).tagOf = t := rfl

@[simp] theorem tagOf_seq (t : DTag) (items : List (List DElem)) :
    (DElem.seq t items).tagOf = t := rfl

@[simp] theorem vrOf_prim (t : DTag) (vr : VR) (v : PrimValue) :
    (DElem.prim t vr v).vrOf = vr := rfl

@[simp] theorem vrOf_seq (t : DTag) (items : List (List DElem)) :
    (DElem.seq t items).vrOf = VR.SQ := rfl

theorem putEl_of_present (r : Record) (e : DElem)
    (h : r.any (fun x => x.tagOf == e.tagOf) = true) :
    putEl r e = r.map (fun x => if x.tagOf == e.tagOf then e else x) := by
  simp [putEl, h]

theorem any_tag_map_mask (acc : Record) (e : DElem) (val : PrimValue) (t : DTag) :
    ((acc.map (fun x => if x.tagOf == e.tagOf then DElem.prim e.tagOf e.vrOf val else x)).any
        (fun x => x.tagOf == t)) = acc.any (fun x => x.tagOf == t) := by
  rw [List.any_map]
  congr 1
  funext x
  by_cases hx : (x.tagOf == e.tagOf) = true
  · have hxe : x.tagOf = e.tagOf := by simpa using hx
    simp [Function.comp, hx, hxe]
  · simp [Function.comp, hx]

/-- The loop of `mask_all_vr`, characterised for an arbitrary accumulator
containing every iterated tag: each accumulator element whose tag is carried
by some iterated element of the matching VR is overwritten with the
replacement value, everything else — including the whole content of sequence
elements — is untouched. -/
theorem maskAllVr_foldl (vr : VR) (val : PrimValue) :
    ∀ (l acc : Record),
      (∀ e ∈ l, acc.any (fun x => x.tagOf == e.tagOf) = true) →
      List.foldl
          (fun acc2 e => if e.vrOf == vr then putEl acc2 (.prim e.tagOf e.vrOf val) else acc2)
          acc l =
        acc.map (fun x =>
          if l.any (fun e2 => e2.tagOf == x.tagOf && e2.vrOf == vr) then
            DElem.prim x.tagOf vr val
          else x) := by
  intro l
  induction l with
  | nil =>
      intro acc _
      simp
  | cons e l ih =>
      intro acc hpres
      rw [List.foldl_cons]
      by_cases hvr : (e.vrOf == vr) = true
      · have hpe : acc.any (fun x => x.tagOf == e.tagOf) = true :=
          hpres e (List.mem_cons_self e l)
        have hstep :
            (if e.vrOf == vr then putEl acc (.prim e.tagOf e.vrOf val) else acc) =
              acc.map (fun x => if x.tagOf == e.tagOf then DElem.prim e.tagOf e.vrOf val else x) := by
          rw [if_pos hvr, putEl_of_present acc _ (by simpa using hpe)]
          simp
        rw [hstep]
        rw [ih _ (fun e2 he2 => by
          rw [any_tag_map_mask]
          exact hpres e2 (List.mem_cons_of_mem e he2))]
        rw [List.map_map]
        apply List.map_congr_left
        intro x _
        simp only [Function.comp_apply]
        by_cases hx : (x.tagOf == e.tagOf) = true
        · have hxe : x.tagOf = e.tagOf := by simpa using hx
          have hvre : e.vrOf = vr := by simpa using hvr
          have hhead : (e.tagOf == x.tagOf && e.vrOf == vr) = true := by
            simp [hxe, hvre]
          rw [if_pos hx]
          simp only [tagOf_prim]
          rw [hvre, ite_self]
          simp only [List.any_cons, hhead, Bool.true_or, if_pos]
          rw [hxe]
        · have hne : ¬ x.tagOf = e.tagOf := by simpa using hx
          have hhead : (e.tagOf == x.tagOf && e.vrOf == vr) = false := by
            simp [Ne.symm hne]
          rw [if_neg hx]
          simp only [List.any_cons, hhead, Bool.false_or]
      · rw [if_neg hvr]
        rw [ih _ (fun e2 he2 => hpres e2 (List.mem_cons_of_mem e he2))]
        apply List.map_congr_left
        intro x _
        have hvf : (e.vrOf == vr) = false := by
          cases h : (e.vrOf == vr) with
          | true => exact absurd h hvr
          | false => rfl
        have hhead : (e.tagOf == x.tagOf && e.vrOf == vr) = false := by
          simp [hvf]
        simp only [List.any_cons, hhead, Bool.false_or]

/-- `mask_all_vr`, characterised on its own input. -/
theorem maskAllVr_eq_map (r : Record) (vr : VR) (val : PrimValue) :
    maskAllVr r vr val =
      r.map (fun x =>
        if r.any (fun e2 => e2.tagOf == x.tagOf && e2.vrOf == vr) then
          DElem.prim x.tagOf vr val
        else x) := by
  unfold maskAllVr
  exact maskAllVr_foldl vr val r r (fun e he => by
    rw [List.any_eq_true]
    exact ⟨e, he, by simp⟩)

/-- `mask_all_vr` under the tag-uniqueness invariant of the record map: every
top-level element whose VR matches is overwritten (keeping its tag and VR),
every other top-level element — sequence elements among them, together with
all their nested content — is unchanged. -/
theorem maskAllVr_eq_map_nodup (r : Record) (hnd : tagsNodup r) (vr : VR) (val : PrimValue) :
    maskAllVr r vr val =
      r.map (fun x => if x.vrOf == vr then DElem.prim x.tagOf x.vrOf val else x) := by
  rw [maskAllVr_eq_map]
  apply List.map_congr_left
  intro x hx
  by_cases hcond : (r.any fun e2 => e2.tagOf == x.tagOf && e2.vrOf == vr) = true
  · obtain ⟨e2, he2, hb⟩ := List.any_eq_true.mp hcond
    rw [Bool.and_eq_true] at hb
    have ht : e2.tagOf = x.tagOf := by simpa using hb.1
    have hex : e2 = x := List.inj_on_of_nodup_map hnd he2 hx ht
    have hv : x.vrOf = vr := by
      have := hb.2
      rw [hex] at this
      simpa using this
    rw [if_pos hcond, if_pos (by simp [hv]), hv]
  · have hxvr : (x.vrOf == vr) = false := by
      cases hxv : (x.vrOf == vr) with
      | false => rfl
      | true =>
          exact absurd (List.any_eq_true.mpr ⟨x, hx, by simp [hxv]⟩) hcond
    rw [if_neg hcond, if_neg (by simp [hxvr])]

/-- C4 (amended): `mask_vr` replaces the value of every top-level field whose
declared VR is in the list (keeping tag and VR) with the `Strs`-wrapped
replacement, and leaves every other top-level field — including sequence
fields and hence everything nested inside sequences at any depth —
completely unchanged. -/
theorem mask_vr_masks_top_level_only (r : Record) (hnd : tagsNodup r)
    (vrList : List VR) (val : String) :
    maskVr r vrList val =
      r.map (fun x =>
        if x.vrOf ∈ vrList then DElem.prim x.tagOf x.vrOf (.strs [val]) else x) := by
  induction vrList generalizing r with
  | nil => simp [maskVr]
  | cons vr rest ih =>
      have hstep : maskVr r (vr :: rest) val = maskVr (maskAllVr r vr (.strs [val])) rest val := rfl
      have htags : (maskAllVr r vr (.strs [val])).map DElem.tagOf = r.map DElem.tagOf := by
        rw [maskAllVr_eq_map, List.map_map]
        apply List.map_congr_left
        intro x _
        by_cases h : (r.any fun e2 => e2.tagOf == x.tagOf && e2.vrOf == vr) = true
        · simp [Function.comp, h]
        · simp [Function.comp, h]
      have hnd' : tagsNodup (maskAllVr r vr (.strs [val])) := by
        show ((maskAllVr r vr (.strs [val])).map DElem.tagOf).Nodup
        rw [htags]
        exact hnd
      rw [hstep, ih _ hnd', maskAllVr_eq_map_nodup r hnd, List.map_map]
      apply List.map_congr_left
      intro x hx
      simp only [Function.comp_apply]
      by_cases hxv : (x.vrOf == vr) = true
      · have hveq : x.vrOf = vr := by simpa using hxv
        rw [if_pos hxv]
        simp only [vrOf_prim, tagOf_prim]
        rw [ite_self]
        rw [if_pos (by rw [hveq]; exact List.mem_cons_self vr rest)]
      · have hne : ¬ x.vrOf = vr := by simpa using hxv
        rw [if_neg hxv]
        by_cases hmem : x.vrOf ∈ rest
        · rw [if_pos hmem, if_pos (List.mem_cons_of_mem vr hmem)]
        · rw [if_neg hmem, if_neg (by simp [hne, hmem])]

/-- Input for C4: a top-level person-name field and a person-name field
nested inside a sequence item. -/
def exC4 : Record :=
  [.prim ⟨0x0010, 0x0010⟩ .PN (.strs ["Doe^John"]),
   .seq ⟨0x0008, 0x1115⟩ [[.prim ⟨0x0040, 0xA123⟩ .PN (.strs ["Doe^John"])]]]

/-- C4 counterexample: masking all PN values replaces the top-level
PatientName but leaves the PN field nested inside the sequence with its
original value — the claim that fields of the matching value-type nested
inside sequences at any depth are also replaced is false on this input. -/
theorem mask_vr_leaves_nested_counterexample :
    maskVr exC4 [VR.PN] "ANON" =
      [.prim ⟨0x0010, 0x0010⟩ .PN (.strs ["ANON"]),
       .seq ⟨0x0008, 0x1115⟩ [[.prim ⟨0x0040, 0xA123⟩ .PN (.strs ["Doe^John"])]]] := rfl

/-- Witness for C4 (amended) at the concrete record above. -/
theorem mask_vr_masks_top_level_only_witness :
    tagsNodup exC4 ∧
    maskVr exC4 [VR.PN] "ANON" =
      exC4.map (fun x =>
        if x.vrOf ∈ [VR.PN] then DElem.prim x.tagOf x.vrOf (.strs ["ANON"]) else x) :=
  ⟨by decide, mask_vr_masks_top_level_only exC4 (by decide) [VR.PN] "ANON"⟩

/-- Input for C6: a record that does not contain the PatientComments field. -/
def exC6 : Record :=
  [.prim ⟨0x0010, 0x0020⟩ .LO (.strs ["pid"])]

/-- C6 (failing input): masking by reference with a field that is absent from
the record is not a no-op — `put` inserts the masked element, so the field is
present in the output with the substitute identity (type-corrected for its
dictionary VR, here `LT`, hence a `Str` value).  The claim (and the default
cookbook's own comment that mask only works on tags already present) says the
field should remain absent. -/
theorem tags_to_mask_inserts_absent_field :
    tagsToMask exC6 "DEID01" [(⟨0x0010, 0x4000⟩, .LT)] =
      .ok [.prim ⟨0x0010, 0x0020⟩ .LO (.strs ["pid"]),
           .prim ⟨0x0010, 0x4000⟩ .LT (.str "DEID01")] := rfl

@[simp] theorem PRes.bind_ok {α β : Type} (a : α) (f : α → PRes β) :
    PRes.bind (.ok a) f = f a := rfl

theorem primToStr_single (s : String) : primToStr (.strs [s]) = s := rfl

theorem elementTag_cons_pos {x : DElem} {t : DTag} (rest : Record)
    (h : (x.tagOf == t) = true) : elementTag (x :: rest) t = some x := by
  unfold elementTag
  rw [List.find?_cons, h]

theorem elementTag_cons_neg {x : DElem} {t : DTag} (rest : Record)
    (h : (x.tagOf == t) = false) : elementTag (x :: rest) t = elementTag rest t := by
  unfold elementTag
  rw [List.find?_cons, h]

theorem elementTag_map_put (e : DElem) (t : DTag) (h : ¬ e.tagOf = t) :
    ∀ r : Record,
      elementTag (r.map (fun x => if x.tagOf == e.tagOf then e else x)) t = elementTag r t := by
  intro r
  induction r with
  | nil => rfl
  | cons x rest ih =>
      rw [List.map_cons]
      by_cases hx : (x.tagOf == e.tagOf) = true
      · have hxe : x.tagOf = e.tagOf := by simpa using hx
        rw [if_pos hx]
        rw [elementTag_cons_neg _ (by simp [h]), elementTag_cons_neg _ (by simp [hxe, h])]
        exact ih
      · rw [if_neg hx]
        by_cases hxt : (x.tagOf == t) = true
        · rw [elementTag_cons_pos _ hxt, elementTag_cons_pos _ hxt]
        · have hxf : (x.tagOf == t) = false := by
            cases hc : (x.tagOf == t) with
            | true => exact absurd hc hxt
            | false => rfl
          rw [elementTag_cons_neg _ hxf, elementTag_cons_neg _ hxf]
          exact ih

/-- `put` does not disturb lookups at other tags. -/
theorem elementTag_putEl_ne (r : Record) (e : DElem) (t : DTag) (h : ¬ e.tagOf = t) :
    elementTag (putEl r e) t = elementTag r t := by
  unfold putEl
  by_cases hp : (r.any fun x => x.tagOf == e.tagOf) = true
  · rw [if_pos hp]
    exact elementTag_map_put e t h r
  · rw [if_neg hp]
    unfold elementTag
    rw [List.find?_append]
    have hsingle : List.find? (fun x => x.tagOf == t) [e] = none := by
      rw [List.find?_cons_of_neg _ (by simp [h])]
      rfl
    rw [hsingle]
    cases List.find? (fun x => x.tagOf == t) r <;> rfl

theorem find?_map_put_self (e : DElem) :
    ∀ r : Record, (r.any fun x => x.tagOf == e.tagOf) = true →
      elementTag (r.map (fun x => if x.tagOf == e.tagOf then e else x)) e.tagOf = some e := by
  intro r
  induction r with
  | nil => intro hp; simp at hp
  | cons x rest ih =>
      intro hp
      rw [List.map_cons]
      by_cases hx : (x.tagOf == e.tagOf) = true
      · rw [if_pos hx]
        exact elementTag_cons_pos _ (by simp)
      · rw [if_neg hx]
        have hrest : (rest.any fun y => y.tagOf == e.tagOf) = true := by
          rw [List.any_cons] at hp
          cases hc : (x.tagOf == e.tagOf) with
          | true => exact absurd hc hx
          | false =>
              rw [hc, Bool.false_or] at hp
              exact hp
        have hxf : (x.tagOf == e.tagOf) = false := by
          cases hc : (x.tagOf == e.tagOf) with
          | true => exact absurd hc hx
          | false => rfl
        rw [elementTag_cons_neg _ hxf]
        exact ih hrest

/-- `put` makes the inserted element visible at its own tag. -/
theorem elementTag_putEl_self (r : Record) (e : DElem) :
    elementTag (putEl r e) e.tagOf = some e := by
  unfold putEl
  by_cases hp : (r.any fun x => x.tagOf == e.tagOf) = true
  · rw [if_pos hp]
    exact find?_map_put_self e r hp
  · rw [if_neg hp]
    unfold elementTag
    rw [List.find?_append]
    have hnone : List.find? (fun x => x.tagOf == e.tagOf) r = none := by
      rw [List.find?_eq_none]
      intro x hx hpx
      exact hp (List.any_eq_true.mpr ⟨x, hx, hpx⟩)
    rw [hnone]
    rw [List.find?_cons_of_pos _ (by simp)]
    rfl

/-- What one UID actually becomes under `anon_dicom_uids`: the fixed
nine-component stem, then the original components from index 8 on (the first
8 components are dropped). -/
def remapUid (s : String) : String :=
  String.intercalate "." (anonUidPfxParts ++ (splitOnChar '.' s).drop 8)

theorem anonUidStep_ok (r : Record) (name : String) (t : DTag) (s : String)
    (hname : byName name = some (t, .UI))
    (helem : elementTag r t = some (.prim t .UI (.strs [s])))
    (hlen : 8 ≤ (splitOnChar '.' s).length) :
    anonUidStep r name = .ok (putEl r (.prim t .UI (.strs [remapUid s]))) := by
  have hex : extractTagVrFromStr name = .ok (t, .UI) := by
    simp [extractTagVrFromStr, hname]
  simp only [anonUidStep, hex, PRes.bind_ok]
  rw [helem]
  simp only [elemToStr, PRes.bind_ok, primToStr_single]
  rw [if_neg (by omega)]
  simp only [dicomVrCorrectedValue, PRes.bind_ok]
  rfl

/-- C3 (amended): for every record carrying the four UID attributes as
single-string values, each with at least 8 dot-separated components,
`anon_dicom_uids` succeeds and rewrites each of SOPInstanceUID,
StudyInstanceUID, SeriesInstanceUID and FrameOfReferenceUID by replacing its
FIRST 8 components with the fixed nine-component non-identifying stem and
keeping the components from index 8 on; consequently two identifiers whose
originals agree on everything after their first 8 components are remapped
identically (in particular they share all trailing components); and an
identifier with fewer than 8 components makes the function fail by an
out-of-bounds slice panic, aborting the process. -/
theorem anon_dicom_uids_remap (r : Record) (s1 s2 s3 s4 : String)
    (h1 : elementTag r ⟨0x0008, 0x0018⟩ = some (.prim ⟨0x0008, 0x0018⟩ .UI (.strs [s1])))
    (h2 : elementTag r ⟨0x0020, 0x000D⟩ = some (.prim ⟨0x0020, 0x000D⟩ .UI (.strs [s2])))
    (h3 : elementTag r ⟨0x0020, 0x000E⟩ = some (.prim ⟨0x0020, 0x000E⟩ .UI (.strs [s3])))
    (h4 : elementTag r ⟨0x0020, 0x0052⟩ = some (.prim ⟨0x0020, 0x0052⟩ .UI (.strs [s4])))
    (hl1 : 8 ≤ (splitOnChar '.' s1).length) (hl2 : 8 ≤ (splitOnChar '.' s2).length)
    (hl3 : 8 ≤ (splitOnChar '.' s3).length) (hl4 : 8 ≤ (splitOnChar '.' s4).length) :
    (∃ out, anonDicomUids r = .ok out ∧
      elementTag out ⟨0x0008, 0x0018⟩ =
        some (.prim ⟨0x0008, 0x0018⟩ .UI (.strs [remapUid s1])) ∧
      elementTag out ⟨0x0020, 0x000D⟩ =
        some (.prim ⟨0x0020, 0x000D⟩ .UI (.strs [remapUid s2])) ∧
      elementTag out ⟨0x0020, 0x000E⟩ =
        some (.prim ⟨0x0020, 0x000E⟩ .UI (.strs [remapUid s3])) ∧
      elementTag out ⟨0x0020, 0x0052⟩ =
        some (.prim ⟨0x0020, 0x0052⟩ .UI (.strs [remapUid s4]))) ∧
    (∀ sA sB : String, (splitOnChar '.' sA).drop 8 = (splitOnChar '.' sB).drop 8 →
      remapUid sA = remapUid sB) ∧
    (∀ (rr : Record) (s0 : String),
      elementTag rr ⟨0x0008, 0x0018⟩ = some (.prim ⟨0x0008, 0x0018⟩ .UI (.strs [s0])) →
      (splitOnChar '.' s0).length < 8 →
      anonDicomUids rr = .abort) := by
  refine ⟨?_, ?_, ?_⟩
  · have hs1 := anonUidStep_ok r "SOPInstanceUID" ⟨0x0008, 0x0018⟩ s1 rfl h1 hl1
    have h2a : elementTag (putEl r (.prim ⟨0x0008, 0x0018⟩ .UI (.strs [remapUid s1])))
        ⟨0x0020, 0x000D⟩ = some (.prim ⟨0x0020, 0x000D⟩ .UI (.strs [s2])) := by
      rw [elementTag_putEl_ne _ _ _ (by simp only [tagOf_prim]; decide)]
      exact h2
    have hs2 := anonUidStep_ok _ "StudyInstanceUID" ⟨0x0020, 0x000D⟩ s2 rfl h2a hl2
    have h3a : elementTag
        (putEl (putEl r (.prim ⟨0x0008, 0x0018⟩ .UI (.strs [remapUid s1])))
          (.prim ⟨0x0020, 0x000D⟩ .UI (.strs [remapUid s2])))
        ⟨0x0020, 0x000E⟩ = some (.prim ⟨0x0020, 0x000E⟩ .UI (.strs [s3])) := by
      rw [elementTag_putEl_ne _ _ _ (by simp only [tagOf_prim]; decide), elementTag_putEl_ne _ _ _ (by simp only [tagOf_prim]; decide)]
      exact h3
    have hs3 := anonUidStep_ok _ "SeriesInstanceUID" ⟨0x0020, 0x000E⟩ s3 rfl h3a hl3
    have h4a : elementTag
        (putEl (putEl (putEl r (.prim ⟨0x0008, 0x0018⟩ .UI (.strs [remapUid s1])))
            (.prim ⟨0x0020, 0x000D⟩ .UI (.strs [remapUid s2])))
          (.prim ⟨0x0020, 0x000E⟩ .UI (.strs [remapUid s3])))
        ⟨0x0020, 0x0052⟩ = some (.prim ⟨0x0020, 0x0052⟩ .UI (.strs [s4])) := by
      rw [elementTag_putEl_ne _ _ _ (by simp only [tagOf_prim]; decide), elementTag_putEl_ne _ _ _ (by simp only [tagOf_prim]; decide),
        elementTag_putEl_ne _ _ _ (by simp only [tagOf_prim]; decide)]
      exact h4
    have hs4 := anonUidStep_ok _ "FrameOfReferenceUID" ⟨0x0020, 0x0052⟩ s4 rfl h4a hl4
    refine ⟨putEl (putEl (putEl (putEl r
        (.prim ⟨0x0008, 0x0018⟩ .UI (.strs [remapUid s1])))
        (.prim ⟨0x0020, 0x000D⟩ .UI (.strs [remapUid s2])))
        (.prim ⟨0x0020, 0x000E⟩ .UI (.strs [remapUid s3])))
        (.prim ⟨0x0020, 0x0052⟩ .UI (.strs [remapUid s4])), ?_, ?_, ?_, ?_, ?_⟩
    · show anonDicomUids r = _
      simp only [anonDicomUids, uidTagList, anonDicomUidsAux, hs1, PRes.bind_ok, hs2, hs3, hs4]
    · rw [elementTag_putEl_ne _ _ _ (by simp only [tagOf_prim]; decide), elementTag_putEl_ne _ _ _ (by simp only [tagOf_prim]; decide),
        elementTag_putEl_ne _ _ _ (by simp only [tagOf_prim]; decide)]
      exact elementTag_putEl_self r _
    · rw [elementTag_putEl_ne _ _ _ (by simp only [tagOf_prim]; decide), elementTag_putEl_ne _ _ _ (by simp only [tagOf_prim]; decide)]
      exact elementTag_putEl_self _ _
    · rw [elementTag_putEl_ne _ _ _ (by simp only [tagOf_prim]; decide)]
      exact elementTag_putEl_self _ _
    · exact elementTag_putEl_self _ _
  · intro sA sB h
    unfold remapUid
    rw [h]
  · intro rr s0 h0 hlen0
    have habort : anonUidStep rr "SOPInstanceUID" = .abort := by
      have hex : extractTagVrFromStr "SOPInstanceUID" = .ok (⟨0x0008, 0x0018⟩, .UI) := rfl
      simp only [anonUidStep, hex, PRes.bind_ok]
      rw [h0]
      simp only [elemToStr, PRes.bind_ok, primToStr_single]
      rw [if_pos (by omega)]
    simp only [anonDicomUids, uidTagList, anonDicomUidsAux, habort]
    rfl

/-- Input for C3: the four UID attributes, each with 9 dot-components sharing
the same first 8 components. -/
def exC3 : Record :=
  [.prim ⟨0x0008, 0x0018⟩ .UI (.strs ["1.2.3.4.5.6.7.8.9"]),
   .prim ⟨0x0020, 0x000D⟩ .UI (.strs ["1.2.3.4.5.6.7.8.10"]),
   .prim ⟨0x0020, 0x000E⟩ .UI (.strs ["1.2.3.4.5.6.7.8.11"]),
   .prim ⟨0x0020, 0x0052⟩ .UI (.strs ["1.2.3.4.5.6.7.8.12"])]

/-- The remap the claim describes: replace all but the LAST 8 components with
the fixed stem, preserving the last 8.  Stated from the claim's words, for
comparison with the code's behaviour. -/
def claimUidRemap (s : String) : String :=
  let parts := splitOnChar '.' s
  String.intercalate "." (anonUidPfxParts ++ parts.drop (parts.length - 8))

/-- C3 counterexample: on a 9-component SOPInstanceUID the code keeps only the
single component after index 8 (the result is the stem plus `.9`), whereas the
claim's \"all but the last 8 replaced, last 8 preserved\" would keep
`2.3.4.5.6.7.8.9`; the two disagree, and indeed the claimed trailing 8
components do not survive in the code's output. -/
theorem anon_dicom_uids_counterexample :
    (anonDicomUids exC3 =
      .ok [.prim ⟨0x0008, 0x0018⟩ .UI (.strs ["1.2.999.999999.9999.9.9.9.9999.9"]),
           .prim ⟨0x0020, 0x000D⟩ .UI (.strs ["1.2.999.999999.9999.9.9.9.9999.10"]),
           .prim ⟨0x0020, 0x000E⟩ .UI (.strs ["1.2.999.999999.9999.9.9.9.9999.11"]),
           .prim ⟨0x0020, 0x0052⟩ .UI (.strs ["1.2.999.999999.9999.9.9.9.9999.12"])]) ∧
    "1.2.999.999999.9999.9.9.9.9999.9" ≠ claimUidRemap "1.2.3.4.5.6.7.8.9" :=
  ⟨rfl, by decide⟩

/-- Witness for C3 (amended) at the concrete record above. -/
theorem anon_dicom_uids_remap_witness :
    ∃ out, anonDicomUids exC3 = .ok out ∧
      elementTag out ⟨0x0008, 0x0018⟩ =
        some (.prim ⟨0x0008, 0x0018⟩ .UI (.strs [remapUid "1.2.3.4.5.6.7.8.9"])) := by
  obtain ⟨⟨out, hok, hsop, _, _, _⟩, _, _⟩ :=
    anon_dicom_uids_remap exC3 "1.2.3.4.5.6.7.8.9" "1.2.3.4.5.6.7.8.10"
      "1.2.3.4.5.6.7.8.11" "1.2.3.4.5.6.7.8.12" rfl rfl rfl rfl
      (by decide) (by decide) (by decide) (by decide)
  exact ⟨out, hok, hsop⟩

theorem parseDate8_some_length {s : String} {y m d : Nat}
    (hp : parseDate8 s = some (y, m, d)) : s.length = 8 := by
  unfold parseDate8 at hp
  by_cases hc : s.data.length = 8 ∧ s.data.all Char.isDigit
  · exact hc.1
  · rw [if_neg hc] at hp
    exact Option.noConfusion hp

theorem da_abort_iff (s : String) :
    dicomVrCorrectedValue .DA s = .abort ↔ s.length ≠ 8 := by
  constructor
  · intro hab
    by_contra hlen
    simp only [dicomVrCorrectedValue] at hab
    rw [if_neg (fun h => h hlen)] at hab
    cases hp : parseDate8 s with
    | some v =>
        obtain ⟨y, m, d⟩ := v
        rw [hp] at hab
        exact PRes.noConfusion hab
    | none =>
        rw [hp] at hab
        exact PRes.noConfusion hab
  · intro hlen
    simp only [dicomVrCorrectedValue]
    rw [if_pos hlen]

theorem da_ok {s : String} {y m d : Nat} (hp : parseDate8 s = some (y, m, d)) :
    dicomVrCorrectedValue .DA s = .ok (.date y m d) := by
  have hlen := parseDate8_some_length hp
  simp [dicomVrCorrectedValue, hlen, hp]

theorem da_err {s : String} (hlen : s.length = 8) (hp : parseDate8 s = none) :
    dicomVrCorrectedValue .DA s = .err := by
  simp [dicomVrCorrectedValue, hlen, hp]

theorem tm_abort_iff (s : String) :
    dicomVrCorrectedValue .TM s = .abort ↔ s.length ≠ 6 := by
  constructor
  · intro hab
    by_contra hlen
    simp only [dicomVrCorrectedValue] at hab
    rw [if_neg (fun h => h hlen)] at hab
    cases hp : parseTime6 s with
    | some v =>
        obtain ⟨h, mi, se⟩ := v
        rw [hp] at hab
        exact PRes.noConfusion hab
    | none =>
        rw [hp] at hab
        exact PRes.noConfusion hab
  · intro hlen
    simp only [dicomVrCorrectedValue]
    rw [if_pos hlen]

theorem tm_ok {s : String} {h mi se : Nat} (hlen : s.length = 6)
    (hp : parseTime6 s = some (h, mi, se)) :
    dicomVrCorrectedValue .TM s = .ok (.time h mi se) := by
  simp [dicomVrCorrectedValue, hlen, hp]

theorem tm_err {s : String} (hlen : s.length = 6) (hp : parseTime6 s = none) :
    dicomVrCorrectedValue .TM s = .err := by
  simp [dicomVrCorrectedValue, hlen, hp]

theorem dt_abort_of_no_sep {s d0 : String} (hsplit : splitOnChar 'T' s = [d0]) :
    dicomVrCorrectedValue .DT s = .abort := by
  simp [dicomVrCorrectedValue, hsplit]

theorem dt_abort_of_date_len {s d t : String} {rest : List String}
    (hsplit : splitOnChar 'T' s = d :: t :: rest) (hdlen : d.length ≠ 8) :
    dicomVrCorrectedValue .DT s = .abort := by
  simp [dicomVrCorrectedValue, hsplit, hdlen]

theorem dt_err_of_date_parse {s d t : String} {rest : List String}
    (hsplit : splitOnChar 'T' s = d :: t :: rest) (hdlen : d.length = 8)
    (hdp : parseDate8 d = none) :
    dicomVrCorrectedValue .DT s = .err := by
  simp [dicomVrCorrectedValue, hsplit, hdlen, hdp]

theorem dt_abort_of_time_len {s d t : String} {rest : List String} {y mo dd : Nat}
    (hsplit : splitOnChar 'T' s = d :: t :: rest) (hdlen : d.length = 8)
    (hdp : parseDate8 d = some (y, mo, dd)) (htlen : t.length ≠ 6) :
    dicomVrCorrectedValue .DT s = .abort := by
  simp [dicomVrCorrectedValue, hsplit, hdlen, hdp, htlen]

theorem dt_err_of_time_parse {s d t : String} {rest : List String} {y mo dd : Nat}
    (hsplit : splitOnChar 'T' s = d :: t :: rest) (hdlen : d.length = 8)
    (hdp : parseDate8 d = some (y, mo, dd)) (htlen : t.length = 6)
    (htp : parseTime6 t = none) :
    dicomVrCorrectedValue .DT s = .err := by
  simp [dicomVrCorrectedValue, hsplit, hdlen, hdp, htlen, htp]

theorem dt_ok {s d t : String} {rest : List String} {y mo dd h mi se : Nat}
    (hsplit : splitOnChar 'T' s = d :: t :: rest) (hdlen : d.length = 8)
    (hdp : parseDate8 d = some (y, mo, dd)) (htlen : t.length = 6)
    (htp : parseTime6 t = some (h, mi, se)) :
    dicomVrCorrectedValue .DT s = .ok (.dateTime y mo dd h mi se) := by
  simp [dicomVrCorrectedValue, hsplit, hdlen, hdp, htlen, htp]

/-- C8 (amended): the type-corrected substitution for date, time and combined
date-time values.  A date value aborts the process (`exit(1)`) exactly when
its length is not 8; a length-8 value that parses as a valid YYYYMMDD date
yields the typed date, and a length-8 value that does not parse is an
ordinary error, which fails the file instead of aborting.  A time value
aborts exactly when its length is not 6, with the same split between parsed
success and per-file error at length 6.  A combined date-time with no `T`
separator panics (aborting the process); its date part aborts when not of
length 8 and errors when unparsable; its time part aborts when not of length
6 and errors when unparsable; a well-formed value yields the typed
date-time. -/
theorem dicom_vr_corrected_value_date_time :
    (∀ s : String, dicomVrCorrectedValue .DA s = .abort ↔ s.length ≠ 8) ∧
    (∀ (s : String) (y m d : Nat), parseDate8 s = some (y, m, d) →
      dicomVrCorrectedValue .DA s = .ok (.date y m d)) ∧
    (∀ s : String, s.length = 8 → parseDate8 s = none →
      dicomVrCorrectedValue .DA s = .err) ∧
    (∀ s : String, dicomVrCorrectedValue .TM s = .abort ↔ s.length ≠ 6) ∧
    (∀ (s : String) (h mi se : Nat), s.length = 6 → parseTime6 s = some (h, mi, se) →
      dicomVrCorrectedValue .TM s = .ok (.time h mi se)) ∧
    (∀ s : String, s.length = 6 → parseTime6 s = none →
      dicomVrCorrectedValue .TM s = .err) ∧
    (∀ s d0 : String, splitOnChar 'T' s = [d0] →
      dicomVrCorrectedValue .DT s = .abort) ∧
    (∀ (s d t : String) (rest : List String), splitOnChar 'T' s = d :: t :: rest →
      (d.length ≠ 8 → dicomVrCorrectedValue .DT s = .abort) ∧
      (d.length = 8 → parseDate8 d = none → dicomVrCorrectedValue .DT s = .err) ∧
      (∀ y mo dd : Nat, d.length = 8 → parseDate8 d = some (y, mo, dd) →
        (t.length ≠ 6 → dicomVrCorrectedValue .DT s = .abort) ∧
        (t.length = 6 → parseTime6 t = none → dicomVrCorrectedValue .DT s = .err) ∧
        (∀ h mi se : Nat, t.length = 6 → parseTime6 t = some (h, mi, se) →
          dicomVrCorrectedValue .DT s = .ok (.dateTime y mo dd h mi se)))) := by
  refine ⟨da_abort_iff, ?_, ?_, tm_abort_iff, ?_, ?_, ?_, ?_⟩
  · intro s y m d hp
    exact da_ok hp
  · intro s hlen hp
    exact da_err hlen hp
  · intro s h mi se hlen hp
    exact tm_ok hlen hp
  · intro s hlen hp
    exact tm_err hlen hp
  · intro s d0 hsplit
    exact dt_abort_of_no_sep hsplit
  · intro s d t rest hsplit
    refine ⟨fun hdlen => dt_abort_of_date_len hsplit hdlen,
      fun hdlen hdp => dt_err_of_date_parse hsplit hdlen hdp,
      fun y mo dd hdlen hdp => ⟨fun htlen => dt_abort_of_time_len hsplit hdlen hdp htlen,
        fun htlen htp => dt_err_of_time_parse hsplit hdlen hdp htlen htp,
        fun h mi se htlen htp => dt_ok hsplit hdlen hdp htlen htp⟩⟩

/-- C8 counterexample: `1900010A` has length 8 but is not 8 digits, so by the
claim it should abort the whole process; the code instead returns an ordinary
error, which the orchestrator catches and turns into a per-file failure. -/
theorem dicom_vr_corrected_value_malformed_date_err :
    dicomVrCorrectedValue .DA "1900010A" = .err ∧
    (PRes.err : PRes PrimValue) ≠ .abort :=
  ⟨rfl, by decide⟩

/-- Witness for C8 at concrete inputs: a short date aborts, well-formed date,
time and date-time values produce the typed values. -/
theorem dicom_vr_corrected_value_date_time_witness :
    dicomVrCorrectedValue .DA "190001" = .abort ∧
    dicomVrCorrectedValue .DA "19000101" = .ok (.date 1900 1 1) ∧
    dicomVrCorrectedValue .TM "090000" = .ok (.time 9 0 0) ∧
    dicomVrCorrectedValue .DT "19000101T090000" = .ok (.dateTime 1900 1 1 9 0 0) := by
  refine ⟨?_, ?_, ?_, ?_⟩
  · exact (dicom_vr_corrected_value_date_time.1 "190001").mpr (by decide)
  · exact dicom_vr_corrected_value_date_time.2.1 "19000101" 1900 1 1 (by decide)
  · exact dicom_vr_corrected_value_date_time.2.2.2.2.1 "090000" 9 0 0 (by decide) (by decide)
  · exact ((dicom_vr_corrected_value_date_time.2.2.2.2.2.2.2 "19000101T090000"
      "19000101" "090000" [] (by decide)).2.2 1900 1 1 (by decide) (by decide)).2.2
      9 0 0 (by decide) (by decide)

/-- C7 (amended): in deidentification mode, a record whose match-field value
has no entry in the mapping table is skipped: per-file processing returns
success without transforming the record and without dispatching any write
(`ok none`); such a file increments neither the failed nor the non-DICOM
counter of the run; but the final summary's processed figure is computed as
total − failed − nonDICOM, so each skipped file makes that figure one larger —
the summary counts skipped files as processed. -/
theorem deid_lookup_miss_skips (r : Record) (dict : List (String × String))
    (matchId : DTag × VR) (maskTagCfg : List (DTag × VR)) (maskVrCfg : List VR)
    (deleteTagCfg : List (DTag × VR)) (addCfg : List (String × String))
    (priv : Bool) (e : DElem) (key : String)
    (helem : elementTag r matchId.1 = some e)
    (hstr : elemToStr e = .ok key)
    (hmiss : mapLookup dict key = none) :
    deidEachDcmFile r dict matchId maskTagCfg maskVrCfg deleteTagCfg addCfg priv =
      .ok none ∧
    (∀ (files : List (Option Record)) (c : Nat × Nat),
      deidRunCounters dict matchId maskTagCfg maskVrCfg deleteTagCfg addCfg priv
          (some r :: files) c =
        deidRunCounters dict matchId maskTagCfg maskVrCfg deleteTagCfg addCfg priv files c) ∧
    (∀ n f nd : Nat, f + nd ≤ n →
      printStatusProcessed (n + 1) f nd = printStatusProcessed n f nd + 1) := by
  have hskip : deidEachDcmFile r dict matchId maskTagCfg maskVrCfg deleteTagCfg addCfg priv =
      .ok none := by
    simp only [deidEachDcmFile, helem, hstr, PRes.bind_ok, hmiss, Option.getD]
    simp
  refine ⟨hskip, ?_, ?_⟩
  · intro files c
    simp only [deidRunCounters, hskip]
  · intro n f nd hle
    simp only [printStatusProcessed]
    omega

/-- Input for C7: a record whose PatientID `U2` has no entry in the mapping
table. -/
def exC7 : Record := [.prim ⟨0x0010, 0x0020⟩ .LO (.strs ["U2"])]

/-- C7 counterexample: a one-file run in which the only record is skipped on a
mapping-table miss leaves both counters at zero, yet the summary's processed
figure is 1, not 0 — the skipped file is reported as processed in the final
summary, contradicting the claim that it is counted neither as a success nor
as a failure there. -/
theorem deid_skipped_file_counted_processed :
    deidEachDcmFile exC7 [("U1", "DEID01")] (⟨0x0010, 0x0020⟩, .LO) [] [] [] [] false =
      .ok none ∧
    deidRunCounters [("U1", "DEID01")] (⟨0x0010, 0x0020⟩, .LO) [] [] [] [] false
      [some exC7] (0, 0) = .ok (0, 0) ∧
    printStatusProcessed 1 0 0 = 1 :=
  ⟨rfl, rfl, rfl⟩

/-- Witness for C7 (amended) at the concrete record above. -/
theorem deid_lookup_miss_skips_witness :
    deidEachDcmFile exC7 [("U1", "DEID01")] (⟨0x0010, 0x0020⟩, .LO) [] [] [] [] false =
      .ok none ∧
    printStatusProcessed (3 + 1) 1 1 = printStatusProcessed 3 1 1 + 1 := by
  have H := deid_lookup_miss_skips exC7 [("U1", "DEID01")] (⟨0x0010, 0x0020⟩, .LO)
    [] [] [] [] false (.prim ⟨0x0010, 0x0020⟩ .LO (.strs ["U2"])) "U2" rfl rfl rfl
  exact ⟨H.1, H.2.2 3 1 1 (by decide)⟩

theorem PRes.bind_eq_ok {α β : Type} {m : PRes α} {f : α → PRes β} {b : β}
    (h : PRes.bind m f = .ok b) : ∃ a, m = .ok a ∧ f a = .ok b := by
  cases m with
  | abort => exact PRes.noConfusion h
  | err => exact PRes.noConfusion h
  | ok a => exact ⟨a, rfl, h⟩

theorem elementTag_removeElement_self (r : Record) (t : DTag) :
    elementTag (removeElement r t) t = none := by
  unfold elementTag removeElement
  rw [List.find?_eq_none]
  intro x hx
  have hkeep := (List.mem_filter.mp hx).2
  simp only [Bool.not_eq_eq_eq_not, Bool.not_true] at hkeep
  simp [hkeep]

theorem elementTag_removeElement_ne (r : Record) {t' t : DTag} (h : ¬ t' = t) :
    elementTag (removeElement r t') t = elementTag r t := by
  induction r with
  | nil => rfl
  | cons x rest ih =>
      unfold removeElement
      rw [List.filter_cons]
      by_cases hx : (x.tagOf == t') = true
      · have hxe : x.tagOf = t' := by simpa using hx
        rw [hx]
        simp only [Bool.not_true, if_neg (by simp : ¬ false = true)]
        rw [elementTag_cons_neg _ (by simp [hxe, h])]
        exact ih
      · have hxf : (x.tagOf == t') = false := by
          cases hc : (x.tagOf == t') with
          | true => exact absurd hc hx
          | false => rfl
        rw [hxf]
        simp only [Bool.not_false, if_true]
        by_cases hxt : (x.tagOf == t) = true
        · rw [elementTag_cons_pos _ hxt, elementTag_cons_pos _ hxt]
        · have hxtf : (x.tagOf == t) = false := by
            cases hc : (x.tagOf == t) with
            | true => exact absurd hc hxt
            | false => rfl
          rw [elementTag_cons_neg _ hxtf, elementTag_cons_neg _ hxtf]
          exact ih

theorem elementTag_removeElement_none (r : Record) (x t : DTag)
    (h : elementTag r t = none) : elementTag (removeElement r x) t = none := by
  by_cases hx : x = t
  · rw [hx]
    exact elementTag_removeElement_self r t
  · rw [elementTag_removeElement_ne r hx]
    exact h

theorem tagsToDelete_none (t : DTag) :
    ∀ (cfg : List (DTag × VR)) (r : Record), elementTag r t = none →
      elementTag (tagsToDelete r cfg) t = none := by
  intro cfg
  induction cfg with
  | nil => intro r h; exact h
  | cons q rest ih =>
      intro r h
      show elementTag (tagsToDelete (removeElement r q.1) rest) t = none
      exact ih _ (elementTag_removeElement_none r q.1 t h)

/-- `tags_to_delete` leaves a tag alone when no configured entry names it. -/
theorem tagsToDelete_preserves (t : DTag) :
    ∀ (cfg : List (DTag × VR)) (r : Record), (∀ p ∈ cfg, ¬ p.1 = t) →
      elementTag (tagsToDelete r cfg) t = elementTag r t := by
  intro cfg
  induction cfg with
  | nil => intro r _; rfl
  | cons q rest ih =>
      intro r h
      show elementTag (tagsToDelete (removeElement r q.1) rest) t = elementTag r t
      rw [ih _ (fun p hp => h p (List.mem_cons_of_mem q hp))]
      exact elementTag_removeElement_ne r (h q (List.mem_cons_self q rest))

/-- `tags_to_delete` removes a tag named by some configured entry. -/
theorem tagsToDelete_removes (t : DTag) :
    ∀ (cfg : List (DTag × VR)) (r : Record), (∃ p ∈ cfg, p.1 = t) →
      elementTag (tagsToDelete r cfg) t = none := by
  intro cfg
  induction cfg with
  | nil => intro r h; obtain ⟨p, hp, _⟩ := h; exact absurd hp (List.not_mem_nil p)
  | cons q rest ih =>
      intro r h
      show elementTag (tagsToDelete (removeElement r q.1) rest) t = none
      by_cases hq : q.1 = t
      · apply tagsToDelete_none
        rw [hq]
        exact elementTag_removeElement_self r t
      · obtain ⟨p, hp, hpt⟩ := h
        rcases List.mem_cons.mp hp with rfl | hrest
        · exact absurd hpt hq
        · exact ih _ ⟨p, hrest, hpt⟩

/-- `tags_to_add` leaves a tag alone when no configured entry resolves to it. -/
theorem tagsToAdd_preserves (t : DTag) :
    ∀ (l : List (String × String)) (r0 r1 : Record), tagsToAdd r0 l = .ok r1 →
      (∀ p ∈ l, ∀ t2 vr2, byName p.1 = some (t2, vr2) → ¬ t2 = t) →
      elementTag r1 t = elementTag r0 t := by
  intro l
  induction l with
  | nil =>
      intro r0 r1 hok _
      cases hok
      rfl
  | cons q rest ih =>
      intro r0 r1 hok h
      obtain ⟨nm, vv⟩ := q
      cases hbn : byName nm with
      | none =>
          simp only [tagsToAdd, extractTagVrFromStr, hbn, PRes.bind] at hok
          exact PRes.noConfusion hok
      | some tv =>
          obtain ⟨t2, vr2⟩ := tv
          simp only [tagsToAdd, extractTagVrFromStr, hbn, PRes.bind_ok] at hok
          cases hcv : dicomVrCorrectedValue vr2 vv with
          | abort =>
              rw [hcv] at hok
              simp only [PRes.bind] at hok
              exact PRes.noConfusion hok
          | err =>
              rw [hcv] at hok
              simp only [PRes.bind] at hok
              exact PRes.noConfusion hok
          | ok value =>
              rw [hcv] at hok
              simp only [PRes.bind_ok] at hok
              rw [ih _ _ hok (fun p hp => h p (List.mem_cons_of_mem _ hp))]
              exact elementTag_putEl_ne r0 _ t
                (by simpa using h (nm, vv) (List.mem_cons_self _ rest) t2 vr2 hbn)

theorem tagsToAdd_append (l1 l2 : List (String × String)) :
    ∀ r : Record, tagsToAdd r (l1 ++ l2) =
      PRes.bind (tagsToAdd r l1) (fun r2 => tagsToAdd r2 l2) := by
  induction l1 with
  | nil => intro r; rfl
  | cons q rest ih =>
      intro r
      obtain ⟨nm, vv⟩ := q
      cases hbn : byName nm with
      | none => simp [tagsToAdd, extractTagVrFromStr, hbn, PRes.bind]
      | some tv =>
          obtain ⟨t2, vr2⟩ := tv
          simp only [List.cons_append, tagsToAdd, extractTagVrFromStr, hbn, PRes.bind_ok]
          cases hcv : dicomVrCorrectedValue vr2 vv with
          | abort => simp [PRes.bind]
          | err => simp [PRes.bind]
          | ok value => simp only [PRes.bind_ok, List.append_eq, ih]

/-- C5: in `deid_each_dcm_file` the rule stages run in the fixed order
private-purge, mask, VR-mask, add, delete.  Consequently, when the rule set
both masks field F and adds F with a literal value (and no later add entry
resolves to F's tag), any record the pipeline successfully processes has F
bound to the type-corrected literal add value — the add stage overwrites the
mask — unless the delete list also names F's tag, in which case F is absent
from the final record: the delete stage runs last. -/
theorem deid_rule_order_mask_add_delete (r : Record) (dict : List (String × String))
    (matchId : DTag × VR) (maskCfg : List (DTag × VR)) (vrCfg : List VR)
    (delCfg : List (DTag × VR)) (addCfg : List (String × String)) (priv : Bool)
    (Fname : String) (Ft : DTag) (Fvr : VR) (v : String) (pv : PrimValue)
    (l1 l2 : List (String × String))
    (hF : byName Fname = some (Ft, Fvr))
    (hmask : (Ft, Fvr) ∈ maskCfg)
    (hsplit : addCfg = l1 ++ (Fname, v) :: l2)
    (hafter : ∀ p ∈ l2, ∀ t2 vr2, byName p.1 = some (t2, vr2) → ¬ t2 = Ft)
    (hpv : dicomVrCorrectedValue Fvr v = .ok pv) :
    ∀ out, deidEachDcmFile r dict matchId maskCfg vrCfg delCfg addCfg priv =
        .ok (some out) →
      ((∀ p ∈ delCfg, ¬ p.1 = Ft) → elementTag out Ft = some (.prim Ft Fvr pv)) ∧
      ((∃ p ∈ delCfg, p.1 = Ft) → elementTag out Ft = none) := by
  intro out hout
  cases helem : elementTag r matchId.1 with
  | none =>
      simp only [deidEachDcmFile, helem] at hout
      exact PRes.noConfusion hout
  | some e =>
      cases hstr : elemToStr e with
      | abort =>
          simp only [deidEachDcmFile, helem, hstr, PRes.bind] at hout
          exact PRes.noConfusion hout
      | err =>
          simp only [deidEachDcmFile, helem, hstr, PRes.bind] at hout
          exact PRes.noConfusion hout
      | ok key =>
          simp only [deidEachDcmFile, helem, hstr, PRes.bind_ok] at hout
          by_cases hskip : (mapLookup dict key).getD "" = ""
          · rw [if_pos hskip] at hout
            simp at hout
          · rw [if_neg hskip] at hout
            obtain ⟨step2, hm, hout⟩ := PRes.bind_eq_ok hout
            obtain ⟨step4, hadd, hout⟩ := PRes.bind_eq_ok hout
            obtain ⟨san, hsan, hout⟩ := PRes.bind_eq_ok hout
            injection hout with hout1
            injection hout1 with hout2
            have haddne : addCfg.isEmpty = false := by
              rw [hsplit]
              cases l1 <;> rfl
            rw [if_neg (by simp [haddne])] at hadd
            have hstep4 : elementTag step4 Ft = some (.prim Ft Fvr pv) := by
              rw [hsplit, tagsToAdd_append] at hadd
              obtain ⟨rmid, hmid, hadd⟩ := PRes.bind_eq_ok hadd
              simp only [tagsToAdd, extractTagVrFromStr, hF, PRes.bind_ok, hpv] at hadd
              rw [tagsToAdd_preserves Ft l2 _ _ hadd hafter]
              exact elementTag_putEl_self rmid _
            constructor
            · intro hnone
              rw [← hout2]
              by_cases hde : delCfg.isEmpty = true
              · rw [if_pos hde]
                exact hstep4
              · rw [if_neg hde]
                rw [tagsToDelete_preserves Ft delCfg step4 hnone]
                exact hstep4
            · intro hex
              rw [← hout2]
              have hdne : delCfg.isEmpty = false := by
                obtain ⟨p, hp, _⟩ := hex
                cases delCfg with
                | nil => exact absurd hp (List.not_mem_nil p)
                | cons a l => rfl
              rw [if_neg (by simp [hdne])]
              exact tagsToDelete_removes Ft delCfg step4 hex

/-- Input for C5: a record with only a PatientID, mapped by the table. -/
def exC5 : Record := [.prim ⟨0x0010, 0x0020⟩ .LO (.strs ["U1"])]

/-- Witness for C5: with a rule set that masks PatientComments, adds
PatientComments = `note`, and (case B) also deletes PatientComments, the
processed record carries the literal add value, and with the delete rule the
field is absent. -/
theorem deid_rule_order_mask_add_delete_witness :
    (∃ out, deidEachDcmFile exC5 [("U1", "DEID01")] (⟨0x0010, 0x0020⟩, .LO)
        [(⟨0x0010, 0x4000⟩, .LT)] [] [] [("PatientComments", "note")] false =
          .ok (some out) ∧
      elementTag out ⟨0x0010, 0x4000⟩ =
        some (.prim ⟨0x0010, 0x4000⟩ .LT (.str "note"))) ∧
    (∃ out, deidEachDcmFile exC5 [("U1", "DEID01")] (⟨0x0010, 0x0020⟩, .LO)
        [(⟨0x0010, 0x4000⟩, .LT)] [] [(⟨0x0010, 0x4000⟩, .LT)]
        [("PatientComments", "note")] false = .ok (some out) ∧
      elementTag out ⟨0x0010, 0x4000⟩ = none) := by
  constructor
  · refine ⟨_, rfl, ?_⟩
    exact (deid_rule_order_mask_add_delete exC5 [("U1", "DEID01")] (⟨0x0010, 0x0020⟩, .LO)
      [(⟨0x0010, 0x4000⟩, .LT)] [] [] [("PatientComments", "note")] false
      "PatientComments" ⟨0x0010, 0x4000⟩ .LT "note" (.str "note") [] []
      rfl (by decide) rfl (by simp) rfl _ rfl).1 (by simp)
  · refine ⟨_, rfl, ?_⟩
    exact (deid_rule_order_mask_add_delete exC5 [("U1", "DEID01")] (⟨0x0010, 0x0020⟩, .LO)
      [(⟨0x0010, 0x4000⟩, .LT)] [] [(⟨0x0010, 0x4000⟩, .LT)]
      [("PatientComments", "note")] false
      "PatientComments" ⟨0x0010, 0x4000⟩ .LT "note" (.str "note") [] []
      rfl (by decide) rfl (by simp) rfl _ rfl).2
      ⟨(⟨0x0010, 0x4000⟩, .LT), by decide, rfl⟩

theorem mapLookup_append (A B : List (String × String)) (k : String) :
    mapLookup (A ++ B) k = optOr (mapLookup A k) (mapLookup B k) := by
  induction A with
  | nil => rfl
  | cons q rest ih =>
      obtain ⟨k2, v⟩ := q
      by_cases h : k2 = k
      · simp [mapLookup, h, optOr]
      · simp only [List.cons_append, mapLookup, if_neg h]
        exact ih

theorem mapLookup_map_mem (f : String → String) :
    ∀ (names : List String) (k : String), k ∈ names →
      mapLookup (names.map fun n => (n, f n)) k = some (f k) := by
  intro names
  induction names with
  | nil => intro k hk; exact absurd hk (List.not_mem_nil k)
  | cons n rest ih =>
      intro k hk
      by_cases h : n = k
      · subst h
        simp [mapLookup]
      · rcases List.mem_cons.mp hk with rfl | hmem
        · exact absurd rfl h
        · simp only [List.map_cons, mapLookup, if_neg h]
          exact ih k hmem

theorem mapLookup_map_notmem (f : String → String) :
    ∀ (names : List String) (k : String), k ∉ names →
      mapLookup (names.map fun n => (n, f n)) k = none := by
  intro names
  induction names with
  | nil => intro k _; rfl
  | cons n rest ih =>
      intro k hk
      have hne : ¬ n = k := fun h => hk (h ▸ List.mem_cons_self n rest)
      simp only [List.map_cons, mapLookup, if_neg hne]
      exact ih k (fun h => hk (List.mem_cons_of_mem n h))

/-- The entry `get_sanitized_tag_values` produces for one tag name: the
sanitized textual value when the tag is present (readable), the `NoValue_`
fallback when absent. -/
def expectedSanitizedVal (r : Record) (name : String) : String :=
  match elementByName r name with
  | some e =>
      match elemToStr e with
      | .ok s => sanitizeStr s
      | _ => ""
  | none => "NoValue_" ++ name

theorem sanitizedEntriesAux_ok :
    ∀ (names : List String) (r : Record),
      (∀ name ∈ names, ∀ e, elementByName r name = some e → ∃ s, elemToStr e = .ok s) →
      sanitizedEntriesAux r names = .ok (names.map fun n => (n, expectedSanitizedVal r n)) := by
  intro names
  induction names with
  | nil => intro r _; rfl
  | cons name rest ih =>
      intro r h
      have hrest := ih r (fun n hn => h n (List.mem_cons_of_mem name hn))
      cases he : elementByName r name with
      | none =>
          simp only [sanitizedEntriesAux, he, hrest, PRes.bind_ok, List.map_cons]
          simp [expectedSanitizedVal, he]
      | some e =>
          obtain ⟨s, hs⟩ := h name (List.mem_cons_self name rest) e he
          simp only [sanitizedEntriesAux, he, hs, hrest, PRes.bind_ok, List.map_cons]
          simp [expectedSanitizedVal, he, hs]

/-- C10 (amended): for every record on which `determine_plane` succeeds and
whose present sanitized tags are readable as strings, `get_sanitized_tag_values`
succeeds with a map that binds each of the ten fixed tag names to the
record's textual value with every `-` and `:` removed when the tag is
present, and to `NoValue_` followed by the tag name when it is absent —
absence of any of these tags is never an error — plus an ImagePlane entry
carrying `determine_plane`'s result.  (The unqualified claim is false: a
present but unreadable ImageOrientationPatient or sanitized tag makes the
function fail, see the counterexample.) -/
theorem get_sanitized_tag_values_entries (r : Record) (pl : String)
    (hplane : determinePlane r = .ok pl)
    (hstr : ∀ name ∈ dicomTagsSanitized, ∀ e, elementByName r name = some e →
      ∃ s, elemToStr e = .ok s) :
    ∃ m, getSanitizedTagValues r = .ok m ∧
      (∀ name ∈ dicomTagsSanitized,
        (∀ e s, elementByName r name = some e → elemToStr e = .ok s →
          mapLookup m name = some (sanitizeStr s)) ∧
        (elementByName r name = none → mapLookup m name = some ("NoValue_" ++ name))) ∧
      mapLookup m "ImagePlane" = some pl := by
  refine ⟨(dicomTagsSanitized.map fun n => (n, expectedSanitizedVal r n)) ++
    [("ImagePlane", pl)], ?_, ?_, ?_⟩
  · simp only [getSanitizedTagValues, sanitizedEntriesAux_ok dicomTagsSanitized r hstr,
      PRes.bind_ok, hplane]
  · intro name hname
    constructor
    · intro e s he hs
      rw [mapLookup_append, mapLookup_map_mem _ _ _ hname, optOr_some]
      simp [expectedSanitizedVal, he, hs]
    · intro he
      rw [mapLookup_append, mapLookup_map_mem _ _ _ hname, optOr_some]
      simp [expectedSanitizedVal, he]
  · rw [mapLookup_append, mapLookup_map_notmem _ _ _ (by decide), optOr_none]
    simp [mapLookup]

/-- Input for C10: a record whose ImageOrientationPatient is present but not
numeric. -/
def exC10 : Record :=
  [.prim ⟨0x0020, 0x0037⟩ .DS (.strs ["x", "0", "0", "0", "0", "0"])]

/-- C10 counterexample: this decodable record makes
`get_sanitized_tag_values` fail — `determine_plane` propagates the
float-conversion error of the non-numeric ImageOrientationPatient — so the
claim that the function succeeds for every decodable record is false. -/
theorem get_sanitized_tag_values_counterexample :
    getSanitizedTagValues exC10 = .err := rfl

/-- Witness for C10 (amended) on the empty record: all ten tags fall back to
their `NoValue_` entries and the plane defaults to `NA`. -/
theorem get_sanitized_tag_values_entries_witness :
    ∃ m, getSanitizedTagValues ([] : Record) = .ok m ∧
      mapLookup m "PatientID" = some "NoValue_PatientID" ∧
      mapLookup m "ImagePlane" = some "NA" := by
  have hplane : determinePlane ([] : Record) = .ok "NA" := by
    have h0 : elementByName ([] : Record) "ImageOrientationPatient" = none := rfl
    simp only [determinePlane, h0, PRes.bind_ok]
    norm_num [roundAway, toI8Sat, List.getD]
  have hstr : ∀ name ∈ dicomTagsSanitized, ∀ e,
      elementByName ([] : Record) name = some e → ∃ s, elemToStr e = .ok s := by
    intro name _ e he
    have hnone : elementByName ([] : Record) name = none := by
      unfold elementByName
      cases hb : byName name with
      | none => rfl
      | some tv => obtain ⟨t, vr⟩ := tv; rfl
    rw [hnone] at he
    exact Option.noConfusion he
  obtain ⟨m, hok, hall, hip⟩ := get_sanitized_tag_values_entries [] "NA" hplane hstr
  exact ⟨m, hok, (hall "PatientID" (by decide)).2 rfl, hip⟩

end Dcmrig
